import Mathlib

/-!
# Verification of `pkg/standalone/common.go`

The Go functions `binaryFilePath`, `GetResourcesDir`, `createSymLink` and
`emptyAndCopyFiles` are embedded over an explicit model of a POSIX file
system.  The file system model (the part played by the operating system and
the Go standard library) is described first; the embedded functions follow and
keep the names they have in the source.

Modelling decisions for the file system:

* a path as the program writes it (`PathName`) is absolute or relative and
  holds its components; paths are clean, without `.` and `..`, so
  `path_filepath.Join(dir, name)` adds one component;
* a system call receives the components of its path counted from the root
  directory: those of an absolute path, and for a relative path those of the
  working directory `cwd` followed by its own;
* a file system is a finite table from locations to nodes: a plain file with
  its bytes, a directory, or a symbolic link with its target, stored as the
  program wrote it;
* name lookup follows symbolic links at every component, an absolute target
  from the root and a relative target from the directory that holds the link,
  with the kernel's bound of `maxSymlinks` links for one lookup (`ELOOP`
  beyond it);
* access permissions are absent: every operation the directory structure
  allows succeeds.

A *location* is a list of components counted from the root none of which is
followed as a link: the place in the table a lookup ends at.  The properties
hold for every table, whether or not it is the image of a tree.
-/

namespace Standalone

/-! ## File system model -/

/-- A list of components counted from the root directory: what a system call
looks up, and where a lookup ends. -/
abbrev Path := List String

/-- A path as the program writes it: absolute or relative, with its
components.  The absolute path without components is `/`, the relative one is
`.`; the empty string, which no system call accepts, is not among the paths. -/
structure PathName where
  absolute : Bool
  parts : List String
  deriving DecidableEq

/-- The absolute path with the given components. -/
def PathName.abs (parts : List String) : PathName := ⟨true, parts⟩

/-- The relative path with the given components. -/
def PathName.rel (parts : List String) : PathName := ⟨false, parts⟩

/-- Model of `path_filepath.Join(p, name)` for one more component. -/
def PathName.join (p : PathName) (name : String) : PathName :=
  ⟨p.absolute, p.parts ++ [name]⟩

/-- The components of `p` counted from the root, for a process whose working
directory is at the location `cwd`. -/
def PathName.full (p : PathName) (cwd : Path) : Path :=
  if p.absolute then p.parts else cwd ++ p.parts

/-- Where the lookup of a link's target starts: at the root for an absolute
target, at the directory `dir` that holds the link for a relative one. -/
def linkBase (dir : Path) (t : PathName) : Path :=
  if t.absolute then [] else dir

/-- The content of a plain file. -/
abbrev Bytes := List UInt8

/-- What a path of the table holds. -/
inductive Node where
  | file (content : Bytes)
  | dir
  | symlink (target : PathName)
  deriving DecidableEq

/-- The error numbers the modelled system calls report. -/
inductive Errno where
  | ENOENT
  | ENOTDIR
  | ELOOP
  | EEXIST
  | ENOTEMPTY
  | EISDIR
  | EBUSY
  deriving DecidableEq

/-- A file system: the table of its entries.  The root directory `[]` always
exists and is never stored; of two entries with the same path the first one
counts. -/
structure FS where
  entries : List (Path × Node)
  deriving DecidableEq

/-- The node the table holds at a location. -/
def FS.node (fs : FS) (p : Path) : Option Node :=
  if p = [] then some Node.dir
  else (fs.entries.find? (fun e => decide (e.1 = p))).map Prod.snd

/-- The table with location `p` holding `n`. -/
def FS.set (fs : FS) (p : Path) (n : Node) : FS :=
  ⟨(p, n) :: fs.entries.filter (fun e => decide (e.1 ≠ p))⟩

/-- The table without the entry at location `p`. -/
def FS.erase (fs : FS) (p : Path) : FS :=
  ⟨fs.entries.filter (fun e => decide (e.1 ≠ p))⟩

/-- The table without location `p` and everything below it. -/
def FS.removeTree (fs : FS) (p : Path) : FS :=
  ⟨fs.entries.filter (fun e => decide (¬ p <+: e.1))⟩

/-- The name `n` when `p` is the location `c ++ [n]`. -/
def childName (c p : Path) : Option String :=
  match p.drop c.length with
  | [n] => if p.take c.length = c then some n else none
  | _ => none

/-- The names of the entries of the directory at location `c`, each once, in
increasing order, the order in which `os.ReadDir` returns them (names compare
character by character, which for UTF-8 is the order of their bytes). -/
def FS.children (fs : FS) (c : Path) : List String :=
  ((fs.entries.filterMap (fun e => childName c e.1)).dedup).insertionSort (fun a b => a.data ≤ b.data)

/-- How a lookup treats the last component of the path. -/
inductive Mode where
  | follow
  | nofollow
  | create
  deriving DecidableEq

/-- One lookup without a budget of its own: `cur` is the directory reached so
far, the list holds the components still to walk, and `k start rest` is what
to do when a symbolic link has to be followed: `start` is where the lookup of
its target starts and `rest` the target's components followed by those still
to walk. -/
def walkWith (fs : FS) (m : Mode) (k : Path → List String → Except Errno Path) :
    Path → List String → Except Errno Path
  | cur, [] => .ok cur
  | cur, c :: rest =>
    match fs.node (cur ++ [c]) with
    | none =>
      if rest = [] ∧ m ≠ Mode.follow then .ok (cur ++ [c]) else .error Errno.ENOENT
    | some Node.dir => walkWith fs m k (cur ++ [c]) rest
    | some (Node.file _) => if rest = [] then .ok (cur ++ [c]) else .error Errno.ENOTDIR
    | some (Node.symlink t) =>
      if rest = [] ∧ m = Mode.nofollow then .ok (cur ++ [c])
      else k (linkBase cur t) (t.parts ++ rest)

/-- The lookup with a budget of `n` symbolic links: following a link continues
with one link less at the start of its target, the target's components in
front of the remaining ones. -/
def walk (fs : FS) (m : Mode) : Nat → Path → List String → Except Errno Path
  | 0, cur, rest => walkWith fs m (fun _ _ => .error Errno.ELOOP) cur rest
  | n + 1, cur, rest => walkWith fs m (fun start r => walk fs m n start r) cur rest

/-- What a lookup with a budget of `n` links does at a link: the lookup of `r`
from `start` with one link less. -/
def followLink (fs : FS) (m : Mode) : Nat → Path → List String → Except Errno Path
  | 0, _, _ => .error Errno.ELOOP
  | n + 1, start, r => walk fs m n start r

/-- The number of symbolic links one lookup may follow. -/
def maxSymlinks : Nat := 40

/-- The location the components `p`, counted from the root, lead to. -/
def locate (fs : FS) (m : Mode) (p : Path) : Except Errno Path :=
  walk fs m maxSymlinks [] p

/-- Model of `os.Stat`: the node a path resolves to, links followed. -/
def stat (fs : FS) (p : Path) : Except Errno Node :=
  match locate fs Mode.follow p with
  | .error e => .error e
  | .ok c =>
    match fs.node c with
    | none => .error Errno.ENOENT
    | some n => .ok n

/-- Model of `os.Lstat`: the node a path names, a final link not followed. -/
def lstat (fs : FS) (p : Path) : Except Errno Node :=
  match locate fs Mode.nofollow p with
  | .error e => .error e
  | .ok c =>
    match fs.node c with
    | none => .error Errno.ENOENT
    | some n => .ok n

/-- Model of `os.ReadDir`, reduced to the names of the entries. -/
def readDir (fs : FS) (p : Path) : Except Errno (List String) :=
  match locate fs Mode.follow p with
  | .error e => .error e
  | .ok c =>
    match fs.node c with
    | some Node.dir => .ok (fs.children c)
    | some _ => .error Errno.ENOTDIR
    | none => .error Errno.ENOENT

/-- Model of `os.ReadFile`. -/
def readFile (fs : FS) (p : Path) : Except Errno Bytes :=
  match locate fs Mode.follow p with
  | .error e => .error e
  | .ok c =>
    match fs.node c with
    | some (Node.file b) => .ok b
    | some _ => .error Errno.EISDIR
    | none => .error Errno.ENOENT

/-- Model of `os.WriteFile`: the file is created or truncated, a final link is
followed. -/
def writeFile (fs : FS) (p : Path) (b : Bytes) : Except Errno FS :=
  match locate fs Mode.create p with
  | .error e => .error e
  | .ok c =>
    match fs.node c with
    | none => .ok (fs.set c (Node.file b))
    | some (Node.file _) => .ok (fs.set c (Node.file b))
    | some _ => .error Errno.EISDIR

/-- Model of `os.Remove`: unlinks a file or a link, removes an empty
directory. -/
def remove (fs : FS) (p : Path) : Except Errno FS :=
  match locate fs Mode.nofollow p with
  | .error e => .error e
  | .ok c =>
    if c = [] then .error Errno.EBUSY
    else
      match fs.node c with
      | none => .error Errno.ENOENT
      | some Node.dir => if fs.children c = [] then .ok (fs.erase c) else .error Errno.ENOTEMPTY
      | some _ => .ok (fs.erase c)

/-- Model of `os.RemoveAll`: removes what the path names and everything below
it, a final link not followed; a path that names nothing is no error.  The
result is the error, if any, and the file system left behind. -/
def removeAll (fs : FS) (p : Path) : Option Errno × FS :=
  match locate fs Mode.nofollow p with
  | .error e => if e = Errno.ENOENT then (none, fs) else (some e, fs)
  | .ok c => if c = [] then (some Errno.EBUSY, fs.removeTree c) else (none, fs.removeTree c)

/-- Model of `os.Symlink`: creates the link `newname` with the target `oldname`
stored as written, whether or not it names anything; `newname` must not
exist. -/
def symlink (fs : FS) (oldname : PathName) (newname : Path) : Except Errno FS :=
  match locate fs Mode.nofollow newname with
  | .error e => .error e
  | .ok c =>
    match fs.node c with
    | none => .ok (fs.set c (Node.symlink oldname))
    | some _ => .error Errno.EEXIST

/-- Model of `os.IsNotExist` on the error of a system call. -/
def isNotExist (e : Errno) : Bool := decide (e = Errno.ENOENT)

/-! ## The functions of `pkg/standalone/common.go` -/

/-- The errors the functions return, one constructor for each `fmt.Errorf`
message of the source; `cause` is the wrapped error of the system call. -/
inductive Err where
  /-- The message "directory %s does not exist". -/
  | dirNotExist (dir : PathName)
  /-- The message "error reading directory %s: %w". -/
  | readingDir (dir : PathName) (cause : Errno)
  /-- The message "error reading files from %s: %w". -/
  | readingFiles (dir : PathName) (cause : Errno)
  /-- The message "error removing file %s: %w". -/
  | removingFile (name : String) (cause : Errno)
  /-- The message "error reading file %s: %w". -/
  | readingFile (name : String) (cause : Errno)
  /-- The message "error writing file %s: %w". -/
  | writingFile (name : String) (cause : Errno)
  /-- The message "error removing directory %s: %w". -/
  | removingDir (dir : PathName) (cause : Errno)
  /-- The message "error creating symlink from %s to %s: %w". -/
  | creatingSymlink (dir link : PathName) (cause : Errno)
  deriving DecidableEq

/-- The constant `defaultDaprDirName`. -/
def defaultDaprDirName : String := ".dapr"

/-- The constant `defaultDaprBinDirName`. -/
def defaultDaprBinDirName : String := "bin"

/-- The constant `defaultConfigFileName`. -/
def defaultConfigFileName : String := "config.yaml"

/-- Modelled from the spec: the constant `daprWindowsOS` is declared in a file
of the package that is not at hand; it is the Windows-family value of
`runtime.GOOS`. -/
def daprWindowsOS : String := "windows"

/-- Modelled from the spec: the constant `utils.DefaultComponentsDirName` is
declared in a package that is not at hand; the installation layout names the
legacy directory `components`. -/
def DefaultComponentsDirName : String := "components"

/-- Modelled from the spec: the constant `utils.DefaultResourcesDirName` is
declared in a package that is not at hand; the installation layout names the
new directory `resources`. -/
def DefaultResourcesDirName : String := "resources"

/-- The function `defaultDaprDirPath`; `homeDir` is what `os.UserHomeDir`
returned, the relative path without components when it failed. -/
def defaultDaprDirPath (homeDir : PathName) : PathName :=
  homeDir.join defaultDaprDirName

/-- The function `defaultDaprBinPath`. -/
def defaultDaprBinPath (homeDir : PathName) : PathName :=
  (defaultDaprDirPath homeDir).join defaultDaprBinDirName

/-- The function `binaryFilePath`, on strings as in the source: `join` stands
for `path_filepath.Join` and `goos` for `runtime.GOOS`. -/
def binaryFilePath (join : String → String → String) (goos : String)
    (binaryDir binaryFilePrefix : String) : String :=
  let binaryPath := join binaryDir binaryFilePrefix
  if goos = daprWindowsOS then binaryPath ++ ".exe" else binaryPath

/-- The function `DefaultComponentsDirPath`. -/
def DefaultComponentsDirPath (homeDir : PathName) : PathName :=
  (defaultDaprDirPath homeDir).join DefaultComponentsDirName

/-- The function `DefaultResourcesDirPath`. -/
def DefaultResourcesDirPath (homeDir : PathName) : PathName :=
  (defaultDaprDirPath homeDir).join DefaultResourcesDirName

/-- The function `GetResourcesDir`, run with the working directory at `cwd`:
the path it returns and the file system it leaves. -/
def GetResourcesDir (cwd : Path) (homeDir : PathName) (fs : FS) : PathName × FS :=
  let defaultResourcesDirPath := DefaultResourcesDirPath homeDir
  match stat fs (defaultResourcesDirPath.full cwd) with
  | .error e =>
    if isNotExist e then (DefaultComponentsDirPath homeDir, fs)
    else (defaultResourcesDirPath, fs)
  | .ok _ => (defaultResourcesDirPath, fs)

/-- The function `DefaultConfigFilePath`. -/
def DefaultConfigFilePath (homeDir : PathName) : PathName :=
  (defaultDaprDirPath homeDir).join defaultConfigFileName

/-- The function `createSymLink`, run with the working directory at `cwd`: the
error returned (`none` for `nil`) and the file system left behind. -/
def createSymLink (cwd : Path) (dirName symLinkName : PathName) (fs : FS) : Option Err × FS :=
  match stat fs (dirName.full cwd) with
  | .error e =>
    if isNotExist e then (some (Err.dirNotExist dirName), fs)
    else (some (Err.readingDir dirName e), fs)
  | .ok _ =>
    match symlink fs dirName (symLinkName.full cwd) with
    | .error e => (some (Err.creatingSymlink dirName symLinkName e), fs)
    | .ok fs' => (none, fs')

/-- The first loop of `emptyAndCopyFiles`: `os.Remove` on every listed entry of
`dest`, stopping at the first failure.  Here `dest` is the path as the system
calls receive it, so `path_filepath.Join(dest, file.Name())` is
`dest ++ [name]`. -/
def removeFiles (dest : Path) : List String → FS → Option Err × FS
  | [], fs => (none, fs)
  | name :: files, fs =>
    match remove fs (dest ++ [name]) with
    | .error e => (some (Err.removingFile name e), fs)
    | .ok fs' => removeFiles dest files fs'

/-- The second loop of `emptyAndCopyFiles`: every listed entry of `src` is read
and written to `dest` under the same name, stopping at the first failure.
Here `src` and `dest` are the paths as the system calls receive them. -/
def copyFiles (src dest : Path) : List String → FS → Option Err × FS
  | [], fs => (none, fs)
  | name :: files, fs =>
    match readFile fs (src ++ [name]) with
    | .error e => (some (Err.readingFile name e), fs)
    | .ok content =>
      match writeFile fs (dest ++ [name]) content with
      | .error e => (some (Err.writingFile name e), fs)
      | .ok fs' => copyFiles src dest files fs'

/-- The function `emptyAndCopyFiles`, run with the working directory at `cwd`:
the error returned (`none` for `nil`) and the file system left behind.  The
status line printed before the copy is not part of the file system and is left
out. -/
def emptyAndCopyFiles (cwd : Path) (src dest : PathName) (fs : FS) : Option Err × FS :=
  match stat fs (src.full cwd) with
  | .error e =>
    if isNotExist e then
      match createSymLink cwd dest src fs with
      | (some err, fs') => (some err, fs')
      | (none, fs') => (none, fs')
    else (some (Err.readingDir src e), fs)
  | .ok _ =>
    match readDir fs (dest.full cwd) with
    | .error e => (some (Err.readingFiles dest e), fs)
    | .ok files =>
      match removeFiles (dest.full cwd) files fs with
      | (some err, fs1) => (some err, fs1)
      | (none, fs1) =>
        match readDir fs1 (src.full cwd) with
        | .error e => (some (Err.readingFiles src e), fs1)
        | .ok files =>
          match (if 0 < files.length then copyFiles (src.full cwd) (dest.full cwd) files fs1
              else (none, fs1)) with
          | (some err, fs2) => (some err, fs2)
          | (none, fs2) =>
            match removeAll fs2 (src.full cwd) with
            | (some e, fs3) => (some (Err.removingDir src e), fs3)
            | (none, fs3) =>
              match createSymLink cwd dest src fs3 with
              | (some err, fs4) => (some err, fs4)
              | (none, fs4) => (none, fs4)

/-! ## Notions used to state the properties -/

/-- The errors `emptyAndCopyFiles` raises before it removes `src`: from reading
`dest`, removing an entry of `dest`, reading `src`, reading an entry of `src`,
or writing a file to `dest`. -/
def Err.beforeRemoval : Err → Bool
  | Err.readingFiles _ _ => true
  | Err.removingFile _ _ => true
  | Err.readingFile _ _ => true
  | Err.writingFile _ _ => true
  | _ => false

/-- Every directory and every link of `fs` is a node of `fs0`: the two differ at
most in plain files and in nodes that only `fs0` has. -/
def FS.Within (fs fs0 : FS) : Prop :=
  ∀ x nd, fs.node x = some nd → (∃ b, nd = Node.file b) ∨ fs0.node x = some nd

/-- The location `x` is an entry of the directory at `d`. -/
def IsChild (d x : Path) : Prop := ∃ name : String, x = d ++ [name]

/-- The file system `fs` is `fs0` with some entries of the directory at `d`
removed. -/
def Shrunk (d : Path) (fs0 fs : FS) : Prop :=
  ∀ x, fs.node x = fs0.node x ∨ (fs.node x = none ∧ IsChild d x)

/-- The file system `fs` is `fs0` with some entries of the directory at `d`
replaced by plain files. -/
def Filled (d : Path) (fs0 fs : FS) : Prop :=
  ∀ x, fs.node x = fs0.node x ∨ ((∃ b, fs.node x = some (Node.file b)) ∧ IsChild d x)

/-- What a run of `emptyAndCopyFiles src dest` may change at the location `x`,
with `pd` the directory `dest` names: an entry of `pd`, which if it was a
directory was an empty one, or a location at or below the one `src` names. -/
def Touched (fs : FS) (src pd x : Path) : Prop :=
  (IsChild pd x ∧ (fs.node x = some Node.dir → ∀ n : String, fs.node (x ++ [n]) = none)) ∨
    ∃ ls, locate fs Mode.nofollow src = .ok ls ∧ ls <+: x

/-- The node is absent or a plain file. -/
def Plain (o : Option Node) : Prop :=
  o = none ∨ ∃ b, o = some (Node.file b)

/-! ## States used as examples -/

/-- A legacy installation: `components` holds two files, `resources` a stale
one. -/
def fsLegacy : FS :=
  ⟨[(["resources"], Node.dir), (["resources", "old.yaml"], Node.file [111]),
    (["components"], Node.dir), (["components", "a.yaml"], Node.file [97]),
    (["components", "b.yaml"], Node.file [98])]⟩

/-- The installation `fsLegacy` after the migration. -/
def fsMigrated : FS :=
  ⟨[(["components"], Node.symlink (PathName.abs ["resources"])),
    (["resources", "b.yaml"], Node.file [98]), (["resources", "a.yaml"], Node.file [97]),
    (["resources"], Node.dir)]⟩

/-- An installation whose `resources` directory holds a stale file and a
directory that is not empty. -/
def fsBlocked : FS :=
  ⟨[(["resources"], Node.dir), (["resources", "old.yaml"], Node.file [111]),
    (["resources", "sub"], Node.dir), (["resources", "sub", "x.yaml"], Node.file [120]),
    (["components"], Node.dir), (["components", "a.yaml"], Node.file [97])]⟩

/-- An installation whose `.dapr` is a plain file, not a directory. -/
def fsDaprFile : FS :=
  ⟨[(["home"], Node.dir), (["home", ".dapr"], Node.file [])]⟩

/-- The name of link number `i` of `fsChain`: the letter `l`, `i + 1` times. -/
def chainName (i : Nat) : String := String.mk (List.replicate (i + 1) 'l')

/-- A directory `d` and a chain of forty links leading to it: link number `0`
has the target `d`, link number `i + 1` has link number `i` as its target. -/
def fsChain : FS :=
  ⟨(["d"], Node.dir) :: (List.range 40).map (fun i =>
    ([chainName i], Node.symlink (PathName.abs [if i = 0 then "d" else chainName (i - 1)])))⟩

/-- A working directory `work` with `.dapr/resources` in it and no
`.dapr/components`. -/
def fsRelative : FS :=
  ⟨[(["work"], Node.dir), (["work", ".dapr"], Node.dir),
    (["work", ".dapr", "resources"], Node.dir)]⟩

/-- A directory `r` that holds a link `l` to itself, next to a directory `c`
with one file. -/
def fsSelfLink : FS :=
  ⟨[(["c"], Node.dir), (["c", "a.yaml"], Node.file [97]), (["r"], Node.dir),
    (["r", "l"], Node.symlink (PathName.abs ["r"]))]⟩

/-- A directory `data/c` with one file, reached as `s/c` through the link `s`,
whose target is the link `r/l` to `data`; `r` is a directory. -/
def fsDetour : FS :=
  ⟨[(["data"], Node.dir), (["data", "c"], Node.dir),
    (["data", "c", "a.yaml"], Node.file [97]), (["r"], Node.dir),
    (["r", "l"], Node.symlink (PathName.abs ["data"])),
    (["s"], Node.symlink (PathName.abs ["r", "l"]))]⟩

/-- A directory `d` with one file and a link `c` to it. -/
def fsAlias : FS :=
  ⟨[(["d"], Node.dir), (["d", "a.yaml"], Node.file [97]),
    (["c"], Node.symlink (PathName.abs ["d"]))]⟩

/-! ## The table of entries -/

theorem find_filter_keep (q : Path × Node → Bool) (x : Path) (l : List (Path × Node))
    (h : ∀ e : Path × Node, e.1 = x → q e = true) :
    (l.filter q).find? (fun e => decide (e.1 = x)) = l.find? (fun e => decide (e.1 = x)) := by
  induction l with
  | nil => rfl
  | cons e l ih =>
    by_cases he : e.1 = x
    · have hq := h e he
      simp [List.filter_cons, hq, List.find?_cons, he]
    · by_cases hq : q e = true
      · simp [List.filter_cons, hq, List.find?_cons, he, ih]
      · simp [List.filter_cons, hq, List.find?_cons, he, ih]

theorem find_filter_drop (q : Path × Node → Bool) (x : Path) (l : List (Path × Node))
    (h : ∀ e : Path × Node, e.1 = x → q e = false) :
    (l.filter q).find? (fun e => decide (e.1 = x)) = none := by
  induction l with
  | nil => rfl
  | cons e l ih =>
    by_cases he : e.1 = x
    · have hq := h e he
      simp [List.filter_cons, hq, ih]
    · by_cases hq : q e = true
      · simp [List.filter_cons, hq, List.find?_cons, he, ih]
      · simp [List.filter_cons, hq, ih]

theorem node_root (fs : FS) : fs.node [] = some Node.dir := by
  simp [FS.node]

theorem node_set_self (fs : FS) (p : Path) (n : Node) (hp : p ≠ []) :
    (fs.set p n).node p = some n := by
  simp [FS.node, FS.set, hp]

theorem node_set_other (fs : FS) (p x : Path) (n : Node) (hx : x ≠ p) :
    (fs.set p n).node x = fs.node x := by
  unfold FS.node FS.set
  by_cases h0 : x = []
  · simp [h0]
  · have hpx : ¬ p = x := fun h => hx h.symm
    simp only [h0, if_false, List.find?_cons, hpx, decide_False]
    rw [find_filter_keep]
    intro e he
    simp [he, hx]

theorem node_erase_self (fs : FS) (p : Path) (hp : p ≠ []) :
    (fs.erase p).node p = none := by
  unfold FS.node FS.erase
  simp only [hp, if_false]
  rw [find_filter_drop]
  · rfl
  · intro e he
    simp [he]

theorem node_erase_other (fs : FS) (p x : Path) (hx : x ≠ p) :
    (fs.erase p).node x = fs.node x := by
  unfold FS.node FS.erase
  by_cases h0 : x = []
  · simp [h0]
  · simp only [h0, if_false]
    rw [find_filter_keep]
    intro e he
    simp [he, hx]

theorem node_removeTree_below (fs : FS) (p x : Path) (hx : x ≠ []) (h : p <+: x) :
    (fs.removeTree p).node x = none := by
  unfold FS.node FS.removeTree
  simp only [hx, if_false]
  rw [find_filter_drop]
  · rfl
  · intro e he
    simp [he, h]

theorem node_removeTree_other (fs : FS) (p x : Path) (h : ¬ p <+: x) :
    (fs.removeTree p).node x = fs.node x := by
  unfold FS.node FS.removeTree
  by_cases h0 : x = []
  · simp [h0]
  · simp only [h0, if_false]
    rw [find_filter_keep]
    intro e he
    simp [he, h]

theorem childName_eq_some (c p : Path) (n : String) :
    childName c p = some n ↔ p = c ++ [n] := by
  unfold childName
  constructor
  · intro h
    split at h
    · rename_i m hm
      split at h
      · rename_i ht
        have hn : m = n := by simpa using h
        subst hn
        have := List.take_append_drop c.length p
        rw [hm, ht] at this
        exact this.symm
      · cases h
    · cases h
  · intro h
    subst h
    simp

theorem node_ne_none_iff (fs : FS) (x : Path) (hx : x ≠ []) :
    fs.node x ≠ none ↔ ∃ e ∈ fs.entries, e.1 = x := by
  unfold FS.node
  simp only [hx, if_false]
  constructor
  · intro h
    cases hf : fs.entries.find? (fun e => decide (e.1 = x)) with
    | none => simp [hf] at h
    | some e =>
      refine ⟨e, List.mem_of_find?_eq_some hf, ?_⟩
      have := List.find?_some hf
      simpa using this
  · rintro ⟨e, he, hex⟩ h
    have h2 : fs.entries.find? (fun e => decide (e.1 = x)) = none := by
      cases hf : fs.entries.find? (fun e => decide (e.1 = x)) with
      | none => rfl
      | some e => simp [hf] at h
    rw [List.find?_eq_none] at h2
    have := h2 e he
    simp [hex] at this

theorem mem_children (fs : FS) (c : Path) (n : String) :
    n ∈ fs.children c ↔ fs.node (c ++ [n]) ≠ none := by
  rw [node_ne_none_iff _ _ (by simp)]
  unfold FS.children
  rw [(List.perm_insertionSort _ _).mem_iff, List.mem_dedup, List.mem_filterMap]
  constructor
  · rintro ⟨e, he, hc⟩
    exact ⟨e, he, (childName_eq_some _ _ _).1 hc⟩
  · rintro ⟨e, he, hc⟩
    exact ⟨e, he, (childName_eq_some _ _ _).2 hc⟩

theorem children_eq_nil (fs : FS) (c : Path) :
    fs.children c = [] ↔ ∀ n, fs.node (c ++ [n]) = none := by
  constructor
  · intro h n
    by_contra hn
    have := (mem_children fs c n).2 hn
    rw [h] at this
    cases this
  · intro h
    apply List.eq_nil_iff_forall_not_mem.2
    intro n hn
    exact (mem_children fs c n).1 hn (h n)

/-! ## Name lookup -/

/-- An absolute path is looked up as written. -/
theorem full_abs (p cwd : Path) : (PathName.abs p).full cwd = p := rfl

/-- A relative path is looked up from the working directory. -/
theorem full_rel (p cwd : Path) : (PathName.rel p).full cwd = cwd ++ p := rfl

/-- Joining a name to a path adds one component to what is looked up, which is
how the two loops of `emptyAndCopyFiles` build the paths of the entries. -/
theorem full_join (p : PathName) (name : String) (cwd : Path) :
    (p.join name).full cwd = p.full cwd ++ [name] := by
  unfold PathName.join PathName.full
  cases p.absolute <;> simp

theorem linkBase_cases (dir : Path) (t : PathName) :
    linkBase dir t = [] ∨ linkBase dir t = dir := by
  unfold linkBase
  cases t.absolute <;> simp

theorem node_linkBase (fs : FS) (dir : Path) (t : PathName) (h : fs.node dir = some Node.dir) :
    fs.node (linkBase dir t) = some Node.dir := by
  rcases linkBase_cases dir t with h1 | h1
  · rw [h1]; exact node_root fs
  · rw [h1]; exact h

theorem walk_eq (fs : FS) (m : Mode) (n : Nat) (cur : Path) (rest : List String) :
    walk fs m n cur rest = walkWith fs m (followLink fs m n) cur rest := by
  cases n <;> rfl

theorem walk_nil (fs : FS) (m : Mode) (n : Nat) (cur : Path) :
    walk fs m n cur [] = .ok cur := by
  rw [walk_eq]; rfl

theorem walk_cons (fs : FS) (m : Mode) (n : Nat) (cur : Path) (c : String) (rest : List String) :
    walk fs m n cur (c :: rest) =
      match fs.node (cur ++ [c]) with
      | none =>
        if rest = [] ∧ m ≠ Mode.follow then .ok (cur ++ [c]) else .error Errno.ENOENT
      | some Node.dir => walk fs m n (cur ++ [c]) rest
      | some (Node.file _) => if rest = [] then .ok (cur ++ [c]) else .error Errno.ENOTDIR
      | some (Node.symlink t) =>
        if rest = [] ∧ m = Mode.nofollow then .ok (cur ++ [c])
        else followLink fs m n (linkBase cur t) (t.parts ++ rest) := by
  rw [walk_eq, walkWith]
  cases fs.node (cur ++ [c]) with
  | none => rfl
  | some nd =>
    cases nd with
    | file b => rfl
    | dir => simp only [walk_eq]
    | symlink t => rfl

theorem walk_induct (P : Nat → Path → List String → Prop)
    (hnil : ∀ n cur, P n cur [])
    (hcons : ∀ n cur c rest, P n (cur ++ [c]) rest →
      (∀ k start r, n = k + 1 → P k start r) → P n cur (c :: rest)) :
    ∀ n cur rest, P n cur rest := by
  intro n
  induction n with
  | zero =>
    intro cur rest
    induction rest generalizing cur with
    | nil => exact hnil 0 cur
    | cons c rest ih =>
      exact hcons 0 cur c rest (ih _) (fun k _ _ h => by omega)
  | succ k ihk =>
    intro cur rest
    induction rest generalizing cur with
    | nil => exact hnil (k + 1) cur
    | cons c rest ih =>
      refine hcons (k + 1) cur c rest (ih _) (fun j start r h => ?_)
      have hj : j = k := by omega
      subst hj
      exact ihk start r

/-- Every directory and link of `fs` is there, unchanged, in `fs0`. -/
theorem walk_transfer (fs fs0 : FS) (m : Mode) (c : Path)
    (hR : ∀ x nd, fs.node x = some nd → (∃ b, nd = Node.file b) ∨ fs0.node x = some nd)
    (hF : m = Mode.nofollow ∨
      ((∀ t, fs0.node c ≠ some (Node.symlink t)) ∧ (m = Mode.follow → fs0.node c ≠ none))) :
    ∀ n cur rest, walk fs m n cur rest = .ok c → walk fs0 m n cur rest = .ok c := by
  apply walk_induct
  · intro n cur h
    rw [walk_nil] at h ⊢
    exact h
  · intro n cur a rest ihd ihl h
    rw [walk_cons] at h ⊢
    cases hnode : fs.node (cur ++ [a]) with
    | none =>
      simp only [hnode] at h
      split at h
      · rename_i hc
        obtain ⟨hrest, hm⟩ := hc
        have hc' : cur ++ [a] = c := by injection h
        subst hrest
        cases h0 : fs0.node (cur ++ [a]) with
        | none => simp [hm, hc']
        | some nd0 =>
          cases nd0 with
          | file b => simp [hc']
          | dir => simp [walk_nil, hc']
          | symlink t =>
            rcases hF with hF | hF
            · simp [hF, hc']
            · exact absurd (hc' ▸ h0) (hF.1 t)
      · cases h
    | some nd =>
      cases nd with
      | dir =>
        simp only [hnode] at h
        rcases hR _ _ hnode with ⟨b, hb⟩ | h0
        · cases hb
        · simp only [h0]
          exact ihd h
      | file b =>
        simp only [hnode] at h
        split at h
        · rename_i hrest
          have hc' : cur ++ [a] = c := by injection h
          subst hrest
          cases h0 : fs0.node (cur ++ [a]) with
          | none =>
            rcases hF with hF | hF
            · simp [hF, hc']
            · have : m ≠ Mode.follow := fun hm => hF.2 hm (hc' ▸ h0)
              simp [this, hc']
          | some nd0 =>
            cases nd0 with
            | file b => simp [hc']
            | dir => simp [walk_nil, hc']
            | symlink t =>
              rcases hF with hF | hF
              · simp [hF, hc']
              · exact absurd (hc' ▸ h0) (hF.1 t)
        · cases h
      | symlink t =>
        simp only [hnode] at h
        rcases hR _ _ hnode with ⟨b, hb⟩ | h0
        · cases hb
        · simp only [h0]
          split at h
          · rename_i hc
            simp only [hc, and_self, if_true]
            exact h
          · rename_i hc
            simp only [hc, if_false]
            cases n with
            | zero => cases h
            | succ k => exact ihl k _ _ rfl h

/-- A lookup that follows links ends at a node that exists and is no link. -/
theorem walk_follow_node (fs : FS) (c : Path) :
    ∀ n cur rest, (∃ nd, fs.node cur = some nd ∧ ∀ t, nd ≠ Node.symlink t) →
      walk fs Mode.follow n cur rest = .ok c →
      ∃ nd, fs.node c = some nd ∧ ∀ t, nd ≠ Node.symlink t := by
  apply walk_induct
  · intro n cur hcur h
    rw [walk_nil] at h
    have hc : cur = c := by injection h
    exact hc ▸ hcur
  · intro n cur a rest ihd ihl hcur h
    rw [walk_cons] at h
    cases hnode : fs.node (cur ++ [a]) with
    | none => simp [hnode] at h
    | some nd =>
      cases nd with
      | dir =>
        simp only [hnode] at h
        exact ihd ⟨Node.dir, hnode, fun t ht => by cases ht⟩ h
      | file b =>
        simp only [hnode] at h
        split at h
        · have hc : cur ++ [a] = c := by injection h
          exact ⟨Node.file b, hc ▸ hnode, fun t ht => by cases ht⟩
        · cases h
      | symlink t =>
        simp only [hnode] at h
        have hf : ¬ (rest = [] ∧ Mode.follow = Mode.nofollow) := fun hh => by cases hh.2
        simp only [hf, if_false] at h
        cases n with
        | zero => cases h
        | succ k =>
          refine ihl k _ _ rfl ?_ h
          rcases linkBase_cases cur t with hb | hb
          · rw [hb]; exact ⟨Node.dir, node_root fs, fun t ht => by cases ht⟩
          · rw [hb]; exact hcur

/-- A lookup of `p ++ [name]` first resolves `p` to a directory. -/
theorem walk_split (fs : FS) (m : Mode) (name : String) (L : Path) :
    ∀ n cur p, fs.node cur = some Node.dir → walk fs m n cur (p ++ [name]) = .ok L →
      ∃ c, walk fs Mode.follow n cur p = .ok c ∧ fs.node c = some Node.dir ∧
        (L = c ++ [name] ∨
          (m ≠ Mode.nofollow ∧ ∃ t, fs.node (c ++ [name]) = some (Node.symlink t))) := by
  apply walk_induct
  · intro n cur hcur h
    refine ⟨cur, walk_nil _ _ _ _, hcur, ?_⟩
    rw [List.nil_append, walk_cons] at h
    cases hnode : fs.node (cur ++ [name]) with
    | none =>
      simp only [hnode] at h
      split at h
      · left; injection h with h; exact h.symm
      · cases h
    | some nd =>
      cases nd with
      | dir =>
        simp only [hnode, walk_nil] at h
        left; injection h with h; exact h.symm
      | file b =>
        simp only [hnode, if_true] at h
        left; injection h with h; exact h.symm
      | symlink t =>
        simp only [hnode, true_and] at h
        split at h
        · left; injection h with h; exact h.symm
        · rename_i hm
          right; exact ⟨hm, t, rfl⟩
  · intro n cur a p ihd ihl hcur h
    rw [List.cons_append, walk_cons] at h
    rw [walk_cons]
    have hne : p ++ [name] ≠ [] := by simp
    cases hnode : fs.node (cur ++ [a]) with
    | none => simp [hnode, hne] at h
    | some nd =>
      cases nd with
      | dir =>
        simp only [hnode] at h ⊢
        exact ihd hnode h
      | file b => simp [hnode, hne] at h
      | symlink t =>
        simp only [hnode, hne, false_and, if_false] at h ⊢
        cases n with
        | zero => cases h
        | succ k =>
          have hf : ¬ (p = [] ∧ Mode.follow = Mode.nofollow) := fun hh => by cases hh.2
          simp only [hf, if_false]
          have h2 : walk fs m k (linkBase cur t) ((t.parts ++ p) ++ [name]) = .ok L := by
            rw [List.append_assoc]; exact h
          exact ihl k _ _ rfl (node_linkBase fs cur t hcur) h2

/-- Once `p` resolves to the directory `c`, a lookup of `p ++ [name]` takes its
last step at `c ++ [name]`. -/
theorem walk_join (fs : FS) (m : Mode) (name : String) (c : Path)
    (hdir : fs.node c = some Node.dir)
    (hlast : m = Mode.nofollow ∨ ∀ t, fs.node (c ++ [name]) ≠ some (Node.symlink t)) :
    ∀ n cur p, walk fs Mode.follow n cur p = .ok c →
      walk fs m n cur (p ++ [name]) =
        if fs.node (c ++ [name]) = none ∧ m = Mode.follow then .error Errno.ENOENT
        else .ok (c ++ [name]) := by
  apply walk_induct
  · intro n cur h
    rw [walk_nil] at h
    have hc : cur = c := by injection h
    subst hc
    rw [List.nil_append, walk_cons]
    cases hnode : fs.node (cur ++ [name]) with
    | none =>
      by_cases hm : m = Mode.follow
      · simp [hm]
      · simp [hm]
    | some nd =>
      cases nd with
      | dir => simp [walk_nil]
      | file b => simp
      | symlink t =>
        rcases hlast with hm | hl
        · simp [hm]
        · exact absurd hnode (hl t)
  · intro n cur a p ihd ihl h
    rw [walk_cons] at h
    rw [List.cons_append, walk_cons]
    have hne : p ++ [name] ≠ [] := by simp
    cases hnode : fs.node (cur ++ [a]) with
    | none => simp [hnode] at h
    | some nd =>
      cases nd with
      | dir =>
        simp only [hnode] at h ⊢
        exact ihd h
      | file b =>
        simp only [hnode] at h
        split at h
        · rename_i hp
          have hc : cur ++ [a] = c := by injection h
          rw [← hc, hnode] at hdir
          cases hdir
        · cases h
      | symlink t =>
        have hf : ¬ (p = [] ∧ Mode.follow = Mode.nofollow) := fun hh => by cases hh.2
        simp only [hnode, hf, if_false] at h
        simp only [hnode, hne, false_and, if_false]
        cases n with
        | zero => cases h
        | succ k =>
          have := ihl k _ _ rfl h
          rw [List.append_assoc] at this
          exact this

/-- A larger budget of links does not change a lookup that succeeded. -/
theorem walk_fuel_le (fs : FS) (m : Mode) :
    ∀ n cur rest, ∀ c n', n ≤ n' → walk fs m n cur rest = .ok c →
      walk fs m n' cur rest = .ok c := by
  apply walk_induct
  · intro n cur c n' _ h
    rw [walk_nil] at h ⊢
    exact h
  · intro n cur a rest ihd ihl c n' hn h
    rw [walk_cons] at h ⊢
    cases hnode : fs.node (cur ++ [a]) with
    | none => simpa [hnode] using h
    | some nd =>
      cases nd with
      | dir =>
        simp only [hnode] at h ⊢
        exact ihd c n' hn h
      | file b => simpa [hnode] using h
      | symlink t =>
        simp only [hnode] at h ⊢
        split
        · rename_i hc
          simpa [hc] using h
        · rename_i hc
          simp only [hc, if_false] at h
          cases n with
          | zero => cases h
          | succ k =>
            cases n' with
            | zero => omega
            | succ k' => exact ihl k _ _ rfl c k' (by omega) h

/-- A smaller budget of links gives the same result or runs out. -/
theorem walk_fuel_ge (fs : FS) (m : Mode) :
    ∀ n' cur rest, ∀ c n, n ≤ n' → walk fs m n' cur rest = .ok c →
      walk fs m n cur rest = .ok c ∨ walk fs m n cur rest = .error Errno.ELOOP := by
  apply walk_induct
  · intro n' cur c n _ h
    rw [walk_nil] at h ⊢
    exact Or.inl h
  · intro n' cur a rest ihd ihl c n hn h
    rw [walk_cons] at h ⊢
    cases hnode : fs.node (cur ++ [a]) with
    | none => left; simpa [hnode] using h
    | some nd =>
      cases nd with
      | dir =>
        simp only [hnode] at h ⊢
        exact ihd c n hn h
      | file b => left; simpa [hnode] using h
      | symlink t =>
        simp only [hnode] at h ⊢
        split
        · rename_i hc
          left; simpa [hc] using h
        · rename_i hc
          simp only [hc, if_false] at h
          cases n' with
          | zero => cases h
          | succ k' =>
            cases n with
            | zero => right; rfl
            | succ k => exact ihl k' _ _ rfl c k (by omega) h

/-- A path that names a link resolves by following that link. -/
theorem walk_nofollow_link (fs : FS) (L : Path) (t : PathName)
    (hL : fs.node L = some (Node.symlink t)) :
    ∀ n cur rest, rest ≠ [] → walk fs Mode.nofollow n cur rest = .ok L →
      ∃ k, k ≤ n ∧ walk fs Mode.follow n cur rest =
        followLink fs Mode.follow k (linkBase L.dropLast t) t.parts := by
  apply walk_induct
  · intro n cur h
    exact absurd rfl h
  · intro n cur a rest ihd ihl _ h
    rw [walk_cons] at h
    rw [walk_cons]
    cases hnode : fs.node (cur ++ [a]) with
    | none =>
      simp only [hnode] at h
      split at h
      · have hc : cur ++ [a] = L := by injection h
        rw [hc, hL] at hnode
        cases hnode
      · cases h
    | some nd =>
      cases nd with
      | dir =>
        simp only [hnode] at h ⊢
        by_cases hrest : rest = []
        · subst hrest
          rw [walk_nil] at h
          have hc : cur ++ [a] = L := by injection h
          rw [hc, hL] at hnode
          cases hnode
        · exact ihd hrest h
      | file b =>
        simp only [hnode] at h
        split at h
        · have hc : cur ++ [a] = L := by injection h
          rw [hc, hL] at hnode
          cases hnode
        · cases h
      | symlink t' =>
        have hf : ¬ (rest = [] ∧ Mode.follow = Mode.nofollow) := fun hh => by cases hh.2
        simp only [hnode, hf, if_false] at h ⊢
        by_cases hrest : rest = []
        · subst hrest
          simp only [and_self, if_true] at h
          have hc : cur ++ [a] = L := by injection h
          rw [hc, hL] at hnode
          have ht : t = t' := by injection hnode with h1; injection h1
          subst ht
          subst hc
          exact ⟨n, le_refl _, by simp⟩
        · simp only [hrest, false_and, if_false] at h
          cases n with
          | zero => cases h
          | succ k =>
            have hne : t'.parts ++ rest ≠ [] := by simp [hrest]
            obtain ⟨j, hj, hw⟩ := ihl k _ _ rfl hne h
            exact ⟨j, by omega, hw⟩

/-- A path that names something other than a link resolves to what it names. -/
theorem walk_nofollow_real (fs : FS) (L : Path)
    (hL : ∃ nd, fs.node L = some nd ∧ ∀ t, nd ≠ Node.symlink t) :
    ∀ n cur rest, walk fs Mode.nofollow n cur rest = .ok L →
      walk fs Mode.follow n cur rest = .ok L := by
  obtain ⟨nd, hnd, hnl⟩ := hL
  apply walk_induct
  · intro n cur h
    rw [walk_nil] at h ⊢
    exact h
  · intro n cur a rest ihd ihl h
    rw [walk_cons] at h
    rw [walk_cons]
    cases hnode : fs.node (cur ++ [a]) with
    | none =>
      simp only [hnode] at h
      split at h
      · have hc : cur ++ [a] = L := by injection h
        rw [hc, hnd] at hnode
        cases hnode
      · cases h
    | some nd' =>
      cases nd' with
      | dir =>
        simp only [hnode] at h ⊢
        exact ihd h
      | file b =>
        simp only [hnode] at h ⊢
        exact h
      | symlink t =>
        have hf : ¬ (rest = [] ∧ Mode.follow = Mode.nofollow) := fun hh => by cases hh.2
        simp only [hnode, hf, if_false] at h ⊢
        split at h
        · have hc : cur ++ [a] = L := by injection h
          rw [hc, hnd] at hnode
          injection hnode with h1
          exact absurd h1 (hnl t)
        · cases n with
          | zero => cases h
          | succ k => exact ihl k _ _ rfl h

/-- A path that names nothing in an existing directory does not resolve. -/
theorem walk_nofollow_none (fs : FS) (L : Path) (hL : fs.node L = none) :
    ∀ n cur rest, rest ≠ [] → walk fs Mode.nofollow n cur rest = .ok L →
      walk fs Mode.follow n cur rest = .error Errno.ENOENT := by
  apply walk_induct
  · intro n cur h
    exact absurd rfl h
  · intro n cur a rest ihd ihl _ h
    rw [walk_cons] at h
    rw [walk_cons]
    cases hnode : fs.node (cur ++ [a]) with
    | none => simp
    | some nd' =>
      cases nd' with
      | dir =>
        simp only [hnode] at h ⊢
        by_cases hrest : rest = []
        · subst hrest
          rw [walk_nil] at h
          have hc : cur ++ [a] = L := by injection h
          rw [hc, hL] at hnode
          cases hnode
        · exact ihd hrest h
      | file b =>
        simp only [hnode] at h
        split at h
        · have hc : cur ++ [a] = L := by injection h
          rw [hc, hL] at hnode
          cases hnode
        · cases h
      | symlink t =>
        have hf : ¬ (rest = [] ∧ Mode.follow = Mode.nofollow) := fun hh => by cases hh.2
        simp only [hnode, hf, if_false] at h ⊢
        split at h
        · have hc : cur ++ [a] = L := by injection h
          rw [hc, hL] at hnode
          cases hnode
        · rename_i hc
          have hrest : rest ≠ [] := fun hr => hc ⟨hr, trivial⟩
          cases n with
          | zero => cases h
          | succ k => exact ihl k _ _ rfl (by simp [hrest]) h

/-! ## Lookups from the root -/

theorem locate_follow_node (fs : FS) (p c : Path) (h : locate fs Mode.follow p = .ok c) :
    ∃ nd, fs.node c = some nd ∧ ∀ t, nd ≠ Node.symlink t :=
  walk_follow_node fs c _ _ _ ⟨Node.dir, node_root fs, fun t ht => by cases ht⟩ h

theorem locate_transfer (fs fs0 : FS) (m : Mode) (p c : Path) (hR : fs.Within fs0)
    (hF : m = Mode.nofollow ∨
      ((∀ t, fs0.node c ≠ some (Node.symlink t)) ∧ (m = Mode.follow → fs0.node c ≠ none)))
    (h : locate fs m p = .ok c) : locate fs0 m p = .ok c :=
  walk_transfer fs fs0 m c hR hF _ _ _ h

theorem locate_transfer_dir (fs fs0 : FS) (p c : Path) (hR : fs.Within fs0)
    (hc : fs.node c = some Node.dir) (h : locate fs Mode.follow p = .ok c) :
    locate fs0 Mode.follow p = .ok c := by
  have h0 : fs0.node c = some Node.dir := by
    rcases hR _ _ hc with ⟨b, hb⟩ | h0
    · cases hb
    · exact h0
  refine locate_transfer fs fs0 _ p c hR (Or.inr ⟨?_, ?_⟩) h
  · intro t ht
    rw [h0] at ht
    cases ht
  · intro _ hn
    rw [h0] at hn
    cases hn

theorem locate_transfer_sub (fs fs0 : FS) (p c : Path)
    (hsub : ∀ x nd, fs.node x = some nd → fs0.node x = some nd)
    (h : locate fs Mode.follow p = .ok c) : locate fs0 Mode.follow p = .ok c := by
  obtain ⟨nd, hnd, hnl⟩ := locate_follow_node fs p c h
  have h0 := hsub _ _ hnd
  refine locate_transfer fs fs0 _ p c (fun x nd hx => Or.inr (hsub x nd hx)) (Or.inr ⟨?_, ?_⟩) h
  · intro t ht
    rw [h0] at ht
    injection ht with ht
    exact hnl t ht
  · intro _ hn
    rw [h0] at hn
    cases hn

theorem locate_split (fs : FS) (m : Mode) (p : Path) (name : String) (L : Path)
    (h : locate fs m (p ++ [name]) = .ok L) :
    ∃ c, locate fs Mode.follow p = .ok c ∧ fs.node c = some Node.dir ∧
      (L = c ++ [name] ∨
        (m ≠ Mode.nofollow ∧ ∃ t, fs.node (c ++ [name]) = some (Node.symlink t))) :=
  walk_split fs m name L _ _ _ (node_root fs) h

theorem locate_join (fs : FS) (m : Mode) (p : Path) (name : String) (c : Path)
    (hp : locate fs Mode.follow p = .ok c) (hdir : fs.node c = some Node.dir)
    (hlast : m = Mode.nofollow ∨ ∀ t, fs.node (c ++ [name]) ≠ some (Node.symlink t)) :
    locate fs m (p ++ [name]) =
      if fs.node (c ++ [name]) = none ∧ m = Mode.follow then .error Errno.ENOENT
      else .ok (c ++ [name]) :=
  walk_join fs m name c hdir hlast _ _ _ hp

theorem locate_nofollow_real (fs : FS) (p L : Path) (nd : Node)
    (h : locate fs Mode.nofollow p = .ok L) (hnd : fs.node L = some nd)
    (hnl : ∀ t, nd ≠ Node.symlink t) : locate fs Mode.follow p = .ok L :=
  walk_nofollow_real fs L ⟨nd, hnd, hnl⟩ _ _ _ h

theorem locate_nofollow_nil (fs : FS) (L : Path) (h : locate fs Mode.nofollow [] = .ok L) :
    L = [] := by
  unfold locate at h
  rw [walk_nil] at h
  injection h with h
  exact h.symm

theorem locate_nofollow_none (fs : FS) (p L : Path)
    (h : locate fs Mode.nofollow p = .ok L) (hL : fs.node L = none) :
    locate fs Mode.follow p = .error Errno.ENOENT := by
  have hp : p ≠ [] := by
    intro hp
    subst hp
    have := locate_nofollow_nil fs L h
    subst this
    rw [node_root] at hL
    cases hL
  exact walk_nofollow_none fs L hL _ _ _ hp h

/-! ## The system calls -/

theorem stat_ok (fs : FS) (p : Path) (nd : Node) (h : stat fs p = .ok nd) :
    ∃ c, locate fs Mode.follow p = .ok c ∧ fs.node c = some nd := by
  unfold stat at h
  split at h
  · cases h
  · rename_i c hc
    split at h
    · cases h
    · rename_i n hn
      injection h with h
      subst h
      exact ⟨c, hc, hn⟩

theorem stat_of_locate (fs : FS) (p c : Path) (nd : Node)
    (hc : locate fs Mode.follow p = .ok c) (hn : fs.node c = some nd) :
    stat fs p = .ok nd := by
  unfold stat
  simp [hc, hn]

theorem stat_of_locate_error (fs : FS) (p : Path) (e : Errno)
    (hc : locate fs Mode.follow p = .error e) : stat fs p = .error e := by
  unfold stat
  simp [hc]

theorem lstat_of_locate (fs : FS) (p c : Path) (nd : Node)
    (hc : locate fs Mode.nofollow p = .ok c) (hn : fs.node c = some nd) :
    lstat fs p = .ok nd := by
  unfold lstat
  simp [hc, hn]

theorem readDir_ok (fs : FS) (p : Path) (names : List String) (h : readDir fs p = .ok names) :
    ∃ c, locate fs Mode.follow p = .ok c ∧ fs.node c = some Node.dir ∧
      names = fs.children c := by
  unfold readDir at h
  split at h
  · cases h
  · rename_i c hc
    split at h
    · rename_i hn
      injection h with h
      exact ⟨c, hc, hn, h.symm⟩
    · cases h
    · cases h

theorem readDir_of_locate (fs : FS) (p c : Path)
    (hc : locate fs Mode.follow p = .ok c) (hn : fs.node c = some Node.dir) :
    readDir fs p = .ok (fs.children c) := by
  unfold readDir
  simp [hc, hn]

theorem readFile_ok (fs : FS) (p : Path) (b : Bytes) (h : readFile fs p = .ok b) :
    ∃ c, locate fs Mode.follow p = .ok c ∧ fs.node c = some (Node.file b) := by
  unfold readFile at h
  split at h
  · cases h
  · rename_i c hc
    split at h
    · rename_i b' hn
      injection h with h
      subst h
      exact ⟨c, hc, hn⟩
    · cases h
    · cases h

theorem writeFile_ok (fs fs' : FS) (p : Path) (b : Bytes) (h : writeFile fs p b = .ok fs') :
    ∃ c, locate fs Mode.create p = .ok c ∧
      (fs.node c = none ∨ ∃ b', fs.node c = some (Node.file b')) ∧
      fs' = fs.set c (Node.file b) := by
  unfold writeFile at h
  split at h
  · cases h
  · rename_i c hc
    split at h
    · rename_i hn
      injection h with h
      exact ⟨c, hc, Or.inl hn, h.symm⟩
    · rename_i b' hn
      injection h with h
      exact ⟨c, hc, Or.inr ⟨b', hn⟩, h.symm⟩
    · cases h

theorem remove_ok (fs fs' : FS) (p : Path) (h : remove fs p = .ok fs') :
    ∃ c, locate fs Mode.nofollow p = .ok c ∧ c ≠ [] ∧ fs.node c ≠ none ∧
      fs' = fs.erase c := by
  unfold remove at h
  split at h
  · cases h
  · rename_i c hc
    split at h
    · cases h
    · rename_i hne
      split at h
      · cases h
      · rename_i hn
        split at h
        · injection h with h
          exact ⟨c, hc, hne, by simp [hn], h.symm⟩
        · cases h
      · rename_i nd hn hnd
        injection h with h
        exact ⟨c, hc, hne, by simp [hnd], h.symm⟩

theorem removeAll_cases (fs fs' : FS) (p : Path) (err : Option Errno)
    (h : removeAll fs p = (err, fs')) :
    fs' = fs ∨ ∃ c, locate fs Mode.nofollow p = .ok c ∧ fs' = fs.removeTree c ∧
      (err = none → c ≠ []) := by
  unfold removeAll at h
  split at h
  · left
    split at h
    · injection h with _ h2; exact h2.symm
    · injection h with _ h2; exact h2.symm
  · rename_i c hc
    right
    split at h
    · injection h with h1 h2
      refine ⟨c, hc, h2.symm, fun he => ?_⟩
      rw [he] at h1
      cases h1
    · rename_i hne
      injection h with h1 h2
      exact ⟨c, hc, h2.symm, fun _ => hne⟩

theorem symlink_ok (fs fs' : FS) (old : PathName) (new : Path)
    (h : symlink fs old new = .ok fs') :
    ∃ c, locate fs Mode.nofollow new = .ok c ∧ fs.node c = none ∧
      fs' = fs.set c (Node.symlink old) := by
  unfold symlink at h
  split at h
  · cases h
  · rename_i c hc
    split at h
    · rename_i hn
      injection h with h
      exact ⟨c, hc, hn, h.symm⟩
    · cases h

theorem createSymLink_ok {cwd : Path} (d l : PathName) (fs fs' : FS)
    (h : createSymLink cwd d l fs = (none, fs')) :
    ∃ nd c, stat fs (d.full cwd) = .ok nd ∧ locate fs Mode.nofollow (l.full cwd) = .ok c ∧
      fs.node c = none ∧ fs' = fs.set c (Node.symlink d) := by
  unfold createSymLink at h
  split at h
  · split at h <;> cases h
  · rename_i nd hnd
    split at h
    · cases h
    · rename_i fs1 hs
      injection h with _ h2
      subst h2
      obtain ⟨c, hc, hn, hfs⟩ := symlink_ok _ _ _ _ hs
      exact ⟨nd, c, hnd, hc, hn, hfs⟩

theorem createSymLink_err {cwd : Path} (d l : PathName) (fs fs' : FS) (e : Err)
    (h : createSymLink cwd d l fs = (some e, fs')) :
    fs' = fs ∧ (e = Err.dirNotExist d ∨ (∃ c, e = Err.readingDir d c) ∨
      ∃ c, e = Err.creatingSymlink d l c) := by
  unfold createSymLink at h
  split at h
  · rename_i c hc
    split at h
    · injection h with h1 h2
      injection h1 with h1
      exact ⟨h2.symm, Or.inl h1.symm⟩
    · injection h with h1 h2
      injection h1 with h1
      exact ⟨h2.symm, Or.inr (Or.inl ⟨c, h1.symm⟩)⟩
  · split at h
    · rename_i c hc
      injection h with h1 h2
      injection h1 with h1
      exact ⟨h2.symm, Or.inr (Or.inr ⟨c, h1.symm⟩)⟩
    · cases h

theorem createSymLink_of {cwd : Path} (d l : PathName) (c : Path) (fs : FS) (nd : Node)
    (hd : stat fs (d.full cwd) = .ok nd)
    (hl : locate fs Mode.nofollow (l.full cwd) = .ok c) (hn : fs.node c = none) :
    createSymLink cwd d l fs = (none, fs.set c (Node.symlink d)) := by
  unfold createSymLink symlink
  simp [hd, hl, hn]

theorem copyFiles_guard (src dest : Path) (files : List String) (fs : FS) :
    (if 0 < files.length then copyFiles src dest files fs else (none, fs))
      = copyFiles src dest files fs := by
  cases files with
  | nil => simp [copyFiles]
  | cons a l => simp

theorem pass_result (r : Option Err × FS) :
    (match r with
      | (some err, fs') => (some err, fs')
      | (none, fs') => (none, fs')) = r := by
  rcases r with ⟨_ | e, s⟩ <;> rfl

/-- The ways a run of `emptyAndCopyFiles` can end; `src` and `dest` are the paths
as the system calls receive them. -/
theorem emptyAndCopyFiles_cases {cwd : Path} (srcN destN : PathName) (src dest : Path)
    (hsn : srcN.full cwd = src) (hdn : destN.full cwd = dest)
    (fs fs' : FS) (err : Option Err)
    (h : emptyAndCopyFiles cwd srcN destN fs = (err, fs')) :
    (stat fs src = .error Errno.ENOENT ∧ createSymLink cwd destN srcN fs = (err, fs')) ∨
    (∃ e, stat fs src = .error e ∧ e ≠ Errno.ENOENT ∧
      err = some (Err.readingDir srcN e) ∧ fs' = fs) ∨
    ((∃ nd, stat fs src = .ok nd) ∧
      ((∃ e, readDir fs dest = .error e ∧ err = some (Err.readingFiles destN e) ∧ fs' = fs) ∨
      ∃ files, readDir fs dest = .ok files ∧
        ((∃ e, removeFiles dest files fs = (some e, fs') ∧ err = some e) ∨
        ∃ fs1, removeFiles dest files fs = (none, fs1) ∧
          ((∃ e, readDir fs1 src = .error e ∧
              err = some (Err.readingFiles srcN e) ∧ fs' = fs1) ∨
          ∃ files2, readDir fs1 src = .ok files2 ∧
            ((∃ e, copyFiles src dest files2 fs1 = (some e, fs') ∧ err = some e) ∨
            ∃ fs2, copyFiles src dest files2 fs1 = (none, fs2) ∧
              ((∃ e, removeAll fs2 src = (some e, fs') ∧
                  err = some (Err.removingDir srcN e)) ∨
              ∃ fs3, removeAll fs2 src = (none, fs3) ∧
                createSymLink cwd destN srcN fs3 = (err, fs'))))))) := by
  subst hsn
  subst hdn
  unfold emptyAndCopyFiles at h
  simp only [pass_result, copyFiles_guard] at h
  cases hs : stat fs (srcN.full cwd) with
  | error e =>
    simp only [hs] at h
    by_cases he : e = Errno.ENOENT
    · subst he
      left
      exact ⟨rfl, by simpa [isNotExist] using h⟩
    · right; left
      simp only [isNotExist, he, decide_False] at h
      injection h with h1 h2
      exact ⟨e, rfl, he, h1.symm, h2.symm⟩
  | ok nd =>
    simp only [hs] at h
    right; right
    refine ⟨⟨nd, rfl⟩, ?_⟩
    cases hrd : readDir fs (destN.full cwd) with
    | error e =>
      simp only [hrd] at h
      injection h with h1 h2
      exact Or.inl ⟨e, rfl, h1.symm, h2.symm⟩
    | ok files =>
      simp only [hrd] at h
      right
      refine ⟨files, rfl, ?_⟩
      rcases hrm : removeFiles (destN.full cwd) files fs with ⟨_ | e, fs1⟩
      · simp only [hrm] at h
        right
        refine ⟨fs1, rfl, ?_⟩
        cases hrs : readDir fs1 (srcN.full cwd) with
        | error e =>
          simp only [hrs] at h
          injection h with h1 h2
          exact Or.inl ⟨e, rfl, h1.symm, h2.symm⟩
        | ok files2 =>
          simp only [hrs] at h
          right
          refine ⟨files2, rfl, ?_⟩
          rcases hcp : copyFiles (srcN.full cwd) (destN.full cwd) files2 fs1 with ⟨_ | e, fs2⟩
          · simp only [hcp] at h
            right
            refine ⟨fs2, rfl, ?_⟩
            rcases hra : removeAll fs2 (srcN.full cwd) with ⟨_ | e, fs3⟩
            · simp only [hra] at h
              exact Or.inr ⟨fs3, rfl, h⟩
            · simp only [hra] at h
              injection h with h1 h2
              subst h2
              exact Or.inl ⟨e, rfl, h1.symm⟩
          · simp only [hcp] at h
            injection h with h1 h2
            subst h2
            exact Or.inl ⟨e, rfl, h1.symm⟩
      · simp only [hrm] at h
        injection h with h1 h2
        subst h2
        exact Or.inl ⟨e, rfl, h1.symm⟩

/-! ## The two loops -/

theorem not_child_self (d : Path) : ¬ IsChild d d := by
  rintro ⟨name, h⟩
  have := congrArg List.length h
  simp at this

theorem shrunk_refl (d : Path) (fs : FS) : Shrunk d fs fs :=
  fun _ => Or.inl rfl

theorem shrunk_trans {d : Path} {a b c : FS} (h1 : Shrunk d a b) (h2 : Shrunk d b c) :
    Shrunk d a c := by
  intro x
  rcases h2 x with h | h
  · rcases h1 x with h' | h'
    · exact Or.inl (h.trans h')
    · exact Or.inr ⟨h.trans h'.1, h'.2⟩
  · exact Or.inr h

theorem shrunk_sub {d : Path} {a b : FS} (h : Shrunk d a b) :
    ∀ x nd, b.node x = some nd → a.node x = some nd := by
  intro x nd hx
  rcases h x with h | h
  · rw [← h]; exact hx
  · rw [h.1] at hx; cases hx

theorem shrunk_erase (d : Path) (fs : FS) (name : String) :
    Shrunk d fs (fs.erase (d ++ [name])) := by
  intro x
  by_cases hx : x = d ++ [name]
  · right
    subst hx
    exact ⟨node_erase_self _ _ (by simp), name, rfl⟩
  · left
    exact node_erase_other _ _ _ hx

theorem filled_refl (d : Path) (fs : FS) : Filled d fs fs :=
  fun _ => Or.inl rfl

theorem filled_trans {d : Path} {a b c : FS} (h1 : Filled d a b) (h2 : Filled d b c) :
    Filled d a c := by
  intro x
  rcases h2 x with h | h
  · rcases h1 x with h' | h'
    · exact Or.inl (h.trans h')
    · refine Or.inr ⟨?_, h'.2⟩
      rw [h]; exact h'.1
  · exact Or.inr h

theorem filled_set (d : Path) (fs : FS) (name : String) (b : Bytes) :
    Filled d fs (fs.set (d ++ [name]) (Node.file b)) := by
  intro x
  by_cases hx : x = d ++ [name]
  · right
    subst hx
    exact ⟨⟨b, node_set_self _ _ _ (by simp)⟩, name, rfl⟩
  · left
    exact node_set_other _ _ _ _ hx

theorem within_of_sub {fs fs0 : FS} (h : ∀ x nd, fs.node x = some nd → fs0.node x = some nd) :
    fs.Within fs0 :=
  fun x nd hx => Or.inr (h x nd hx)

theorem within_filled {d : Path} {fs0 a b : FS} (ha : a.Within fs0) (h : Filled d a b) :
    b.Within fs0 := by
  intro x nd hx
  rcases h x with h | h
  · rw [h] at hx; exact ha x nd hx
  · obtain ⟨b', hb'⟩ := h.1
    rw [hb'] at hx
    injection hx with hx
    exact Or.inl ⟨b', hx.symm⟩

/-- An `os.Remove` of an entry of `dest` acts on the directory `dest` named at
the start. -/
theorem remove_at (fs0 fs fs' : FS) (dest pd : Path) (name : String)
    (h0 : locate fs0 Mode.follow dest = .ok pd) (hpd : fs0.node pd = some Node.dir)
    (hsub : ∀ x nd, fs.node x = some nd → fs0.node x = some nd)
    (h : remove fs (dest ++ [name]) = .ok fs') : fs' = fs.erase (pd ++ [name]) := by
  obtain ⟨c, hc, _, _, hfs⟩ := remove_ok _ _ _ h
  have hc0 := locate_transfer fs fs0 Mode.nofollow _ c (within_of_sub hsub) (Or.inl rfl) hc
  rw [locate_join fs0 Mode.nofollow dest name pd h0 hpd (Or.inl rfl)] at hc0
  have hf : ¬ (fs0.node (pd ++ [name]) = none ∧ Mode.nofollow = Mode.follow) :=
    fun hh => by cases hh.2
  rw [if_neg hf] at hc0
  injection hc0 with hc0
  rw [hfs, hc0]

/-- The first loop only removes entries of `dest`, and on success every listed
name is gone. -/
theorem removeFiles_spec (fs0 : FS) (dest pd : Path)
    (h0 : locate fs0 Mode.follow dest = .ok pd) (hpd : fs0.node pd = some Node.dir) :
    ∀ (names : List String) (fs fs' : FS) (err : Option Err),
      (∀ x nd, fs.node x = some nd → fs0.node x = some nd) →
      removeFiles dest names fs = (err, fs') →
      Shrunk pd fs fs' ∧ (err = none → ∀ name ∈ names, fs'.node (pd ++ [name]) = none) ∧
        (∀ e, err = some e → ∃ name c, e = Err.removingFile name c) := by
  intro names
  induction names with
  | nil =>
    intro fs fs' err _ h
    simp only [removeFiles] at h
    injection h with h1 h2
    subst h1; subst h2
    exact ⟨shrunk_refl _ _, fun _ name hn => (by cases hn), fun e he => (by cases he)⟩
  | cons name names ih =>
    intro fs fs' err hsub h
    simp only [removeFiles] at h
    cases hr : remove fs (dest ++ [name]) with
    | error e =>
      simp only [hr] at h
      injection h with h1 h2
      subst h1; subst h2
      refine ⟨shrunk_refl _ _, fun he => (by cases he), fun e' he' => ?_⟩
      injection he' with he'
      exact ⟨name, e, he'.symm⟩
    | ok fs1 =>
      simp only [hr] at h
      have hfs1 := remove_at fs0 fs fs1 dest pd name h0 hpd hsub hr
      have hs1 : Shrunk pd fs fs1 := hfs1 ▸ shrunk_erase pd fs name
      have hsub1 : ∀ x nd, fs1.node x = some nd → fs0.node x = some nd :=
        fun x nd hx => hsub x nd (shrunk_sub hs1 x nd hx)
      obtain ⟨hs2, hgone, hkind⟩ := ih fs1 fs' err hsub1 h
      refine ⟨shrunk_trans hs1 hs2, fun he n hn => ?_, hkind⟩
      rcases List.mem_cons.1 hn with hn | hn
      · subst hn
        have h1 : fs1.node (pd ++ [n]) = none := by
          rw [hfs1]; exact node_erase_self _ _ (by simp)
        rcases hs2 (pd ++ [n]) with h | h
        · rw [h, h1]
        · exact h.1
      · exact hgone he n hn

/-- An `os.WriteFile` of an entry of `dest` acts on the directory `dest` named
at the start, provided no entry of that directory is a link or a directory. -/
theorem write_at (fs0 fs fs' : FS) (dest pd : Path) (name : String) (b : Bytes)
    (h0 : locate fs0 Mode.follow dest = .ok pd)
    (hW : fs.Within fs0) (hplain : Plain (fs.node (pd ++ [name])))
    (h : writeFile fs (dest ++ [name]) b = .ok fs') :
    fs' = fs.set (pd ++ [name]) (Node.file b) ∧ locate fs Mode.follow dest = .ok pd := by
  obtain ⟨L, hL, _, hfs⟩ := writeFile_ok _ _ _ _ h
  obtain ⟨c, hc, hcd, hlast⟩ := locate_split _ _ _ _ _ hL
  have hc0 := locate_transfer_dir fs fs0 dest c hW hcd hc
  rw [h0] at hc0
  injection hc0 with hc0
  subst hc0
  refine ⟨?_, hc⟩
  rcases hlast with hlast | ⟨_, t, ht⟩
  · rw [hfs, hlast]
  · rcases hplain with hp | ⟨b', hp⟩
    · rw [hp] at ht; cases ht
    · rw [hp] at ht; cases ht

/-- The second loop only writes plain files into `dest`; on success every listed
name holds what was read for it. -/
theorem copyFiles_spec (fs0 : FS) (src dest pd : Path) (Good : String → Bytes → Prop)
    (h0 : locate fs0 Mode.follow dest = .ok pd) :
    ∀ (names : List String) (fs fs' : FS) (err : Option Err),
      fs.Within fs0 → (∀ name, Plain (fs.node (pd ++ [name]))) →
      (∀ fsi, Filled pd fs fsi → ∀ name b, readFile fsi (src ++ [name]) = .ok b → Good name b) →
      copyFiles src dest names fs = (err, fs') →
      Filled pd fs fs' ∧
        (∀ x, fs'.node x = fs.node x ∨ ∃ name ∈ names, x = pd ++ [name]) ∧
        (fs' = fs ∨ locate fs Mode.follow dest = .ok pd) ∧
        (∀ e, err = some e →
          ∃ name c, e = Err.readingFile name c ∨ e = Err.writingFile name c) ∧
        (err = none → ∀ name ∈ names, ∃ b, Good name b ∧
          fs'.node (pd ++ [name]) = some (Node.file b)) := by
  intro names
  induction names with
  | nil =>
    intro fs fs' err _ _ _ h
    simp only [copyFiles] at h
    injection h with h1 h2
    subst h1; subst h2
    exact ⟨filled_refl _ _, fun x => Or.inl rfl, Or.inl rfl, fun e he => (by cases he),
      fun _ name hn => (by cases hn)⟩
  | cons name names ih =>
    intro fs fs' err hW hplain hread h
    simp only [copyFiles] at h
    cases hr : readFile fs (src ++ [name]) with
    | error e =>
      simp only [hr] at h
      injection h with h1 h2
      subst h1; subst h2
      refine ⟨filled_refl _ _, fun x => Or.inl rfl, Or.inl rfl, fun e' he' => ?_,
        fun he => (by cases he)⟩
      injection he' with he'
      exact ⟨name, e, Or.inl he'.symm⟩
    | ok b =>
      simp only [hr] at h
      cases hw : writeFile fs (dest ++ [name]) b with
      | error e =>
        simp only [hw] at h
        injection h with h1 h2
        subst h1; subst h2
        refine ⟨filled_refl _ _, fun x => Or.inl rfl, Or.inl rfl, fun e' he' => ?_,
          fun he => (by cases he)⟩
        injection he' with he'
        exact ⟨name, e, Or.inr he'.symm⟩
      | ok fs1 =>
        simp only [hw] at h
        obtain ⟨hfs1, hdest⟩ := write_at fs0 fs fs1 dest pd name b h0 hW (hplain name) hw
        have hf1 : Filled pd fs fs1 := hfs1 ▸ filled_set pd fs name b
        have hW1 : fs1.Within fs0 := within_filled hW hf1
        have hplain1 : ∀ name', Plain (fs1.node (pd ++ [name'])) := by
          intro name'
          rcases hf1 (pd ++ [name']) with h | h
          · rw [h]; exact hplain name'
          · exact Or.inr h.1
        have hread1 : ∀ fsi, Filled pd fs1 fsi → ∀ name b,
            readFile fsi (src ++ [name]) = .ok b → Good name b :=
          fun fsi hfi => hread fsi (filled_trans hf1 hfi)
        obtain ⟨hf2, hframe, _, hkind, hgood⟩ := ih fs1 fs' err hW1 hplain1 hread1 h
        refine ⟨filled_trans hf1 hf2, fun x => ?_, Or.inr hdest, hkind, fun he n hn => ?_⟩
        · rcases hframe x with hx | ⟨n, hn, hx⟩
          · by_cases hxe : x = pd ++ [name]
            · exact Or.inr ⟨name, List.mem_cons_self _ _, hxe⟩
            · left
              rw [hx, hfs1]
              exact node_set_other _ _ _ _ hxe
          · exact Or.inr ⟨n, List.mem_cons_of_mem _ hn, hx⟩
        · by_cases hmem : n ∈ names
          · exact hgood he n hmem
          · rcases List.mem_cons.1 hn with hn | hn
            · subst hn
              refine ⟨b, hread fs (filled_refl _ _) n b hr, ?_⟩
              rcases hframe (pd ++ [n]) with hx | ⟨n', hn', hx⟩
              · rw [hx, hfs1]
                exact node_set_self _ _ _ (by simp)
              · have : n = n' := by simpa using hx
                exact absurd (this ▸ hn') hmem
            · exact absurd hn hmem

theorem removeTree_sub (fs : FS) (p : Path) :
    ∀ x nd, (fs.removeTree p).node x = some nd → fs.node x = some nd := by
  intro x nd hx
  by_cases hp : p <+: x
  · by_cases h0 : x = []
    · subst h0
      rw [node_root] at hx ⊢
      exact hx
    · rw [node_removeTree_below _ _ _ h0 hp] at hx
      cases hx
  · rw [node_removeTree_other _ _ _ hp] at hx
    exact hx

theorem removeAll_sub (fs fs' : FS) (p : Path) (err : Option Errno)
    (h : removeAll fs p = (err, fs')) :
    ∀ x nd, fs'.node x = some nd → fs.node x = some nd := by
  rcases removeAll_cases _ _ _ _ h with h1 | ⟨c, _, h1, _⟩
  · subst h1
    exact fun _ _ h => h
  · subst h1
    exact removeTree_sub fs c

/-- The state after the first loop has run through: the directory `dest` named
at the start has no entries, and nothing else has changed. -/
theorem after_remove (fs fs1 : FS) (dest : Path) (files : List String)
    (hrd : readDir fs dest = .ok files) (hrm : removeFiles dest files fs = (none, fs1)) :
    ∃ pd, locate fs Mode.follow dest = .ok pd ∧ fs.node pd = some Node.dir ∧
      Shrunk pd fs fs1 ∧ ∀ name, fs1.node (pd ++ [name]) = none := by
  obtain ⟨pd, h0, hpd, hfiles⟩ := readDir_ok _ _ _ hrd
  obtain ⟨hs, hgone, _⟩ :=
    removeFiles_spec fs dest pd h0 hpd files fs fs1 none (fun _ _ h => h) hrm
  refine ⟨pd, h0, hpd, hs, fun name => ?_⟩
  rcases hs (pd ++ [name]) with h | h
  · by_cases hn : fs.node (pd ++ [name]) = none
    · rw [h, hn]
    · have hmem : name ∈ files := by
        rw [hfiles]
        exact (mem_children fs pd name).2 hn
      exact hgone rfl name hmem
  · exact h.1

/-- After the second loop `dest` still names the directory it named at the
start, if it names anything. -/
theorem dest_after_copy (fs fs1 fs2 : FS) (dest pd : Path)
    (h0 : locate fs Mode.follow dest = .ok pd)
    (hs : Shrunk pd fs fs1) (hgone : ∀ name, fs1.node (pd ++ [name]) = none)
    (hpd1 : fs1.node pd = some Node.dir)
    (hf : Filled pd fs1 fs2) (hw : fs2 = fs1 ∨ locate fs1 Mode.follow dest = .ok pd) :
    ∀ c, locate fs2 Mode.follow dest = .ok c → c = pd := by
  intro c hc
  rcases hw with hw | hw
  · subst hw
    have := locate_transfer_sub fs2 fs dest c (shrunk_sub hs) hc
    rw [h0] at this
    injection this with this
    exact this.symm
  · have hW : fs1.Within fs2 := by
      intro x nd hx
      rcases hf x with h | h
      · right; rw [h]; exact hx
      · obtain ⟨name, hname⟩ := h.2
        rw [hname, hgone name] at hx
        cases hx
    have := locate_transfer_dir fs1 fs2 dest pd hW hpd1 hw
    rw [hc] at this
    injection this

/-! ## The link created at the end -/

theorem set_sub (fs : FS) (L : Path) (n : Node) (hL : fs.node L = none) :
    ∀ x nd, fs.node x = some nd → (fs.set L n).node x = some nd := by
  intro x nd hx
  have hxL : x ≠ L := by
    intro h
    rw [h, hL] at hx
    cases hx
  rw [node_set_other _ _ _ _ hxL]
  exact hx

/-- What a successful `createSymLink` leaves: the link, with the target as
given, and a target that resolves as before; with an absolute target the link
resolves to the same location unless the lookup runs out of links. -/
theorem createSymLink_links {cwd : Path} (d l : PathName) (fs fs' : FS)
    (h : createSymLink cwd d l fs = (none, fs')) :
    lstat fs' (l.full cwd) = .ok (Node.symlink d) ∧
    ∃ c nd, locate fs Mode.follow (d.full cwd) = .ok c ∧ fs.node c = some nd ∧
      locate fs' Mode.follow (d.full cwd) = .ok c ∧ fs'.node c = some nd ∧
      (d.absolute = true →
        locate fs' Mode.follow (l.full cwd) = .ok c ∨
          locate fs' Mode.follow (l.full cwd) = .error Errno.ELOOP) := by
  obtain ⟨nd, L, hst, hL, hnone, hfs⟩ := createSymLink_ok _ _ _ _ h
  subst hfs
  have hL0 : L ≠ [] := by
    intro h0
    rw [h0, node_root] at hnone
    cases hnone
  have hsub := set_sub fs L (Node.symlink d) hnone
  have hL' : locate (fs.set L (Node.symlink d)) Mode.nofollow (l.full cwd) = .ok L :=
    locate_transfer _ _ Mode.nofollow _ L (within_of_sub hsub) (Or.inl rfl) hL
  have hnode : (fs.set L (Node.symlink d)).node L = some (Node.symlink d) :=
    node_set_self _ _ _ hL0
  obtain ⟨c, hc, hcn⟩ := stat_ok _ _ _ hst
  have hc' := locate_transfer_sub _ _ _ c hsub hc
  have hl0 : l.full cwd ≠ [] := by
    intro h0
    rw [h0] at hL
    exact hL0 (locate_nofollow_nil _ _ hL)
  refine ⟨lstat_of_locate _ _ _ _ hL' hnode, c, nd, hc, hcn, hc', hsub _ _ hcn, fun habs => ?_⟩
  obtain ⟨k, hk, hw⟩ := walk_nofollow_link _ L d hnode _ _ _ hl0 hL'
  have hbase : linkBase L.dropLast d = [] := by
    unfold linkBase
    simp [habs]
  have hfull : d.full cwd = d.parts := by
    unfold PathName.full
    simp [habs]
  rw [hfull] at hc'
  unfold locate
  rw [hw, hbase]
  cases k with
  | zero => right; rfl
  | succ j =>
    show walk _ Mode.follow j [] d.parts = _ ∨ walk _ Mode.follow j [] d.parts = _
    exact walk_fuel_ge _ Mode.follow _ _ _ c j (by omega) hc'

/-- When the run gets as far as the final `createSymLink`, `dest` still is the
directory it was. -/
theorem dest_before_link (src dest : Path) (fs fs1 fs2 fs3 : FS) (files files2 : List String)
    (e3 : Option Errno)
    (hrd : readDir fs dest = .ok files) (hrm : removeFiles dest files fs = (none, fs1))
    (hcp : copyFiles src dest files2 fs1 = (none, fs2))
    (hra : removeAll fs2 src = (e3, fs3)) :
    ∃ pd, locate fs Mode.follow dest = .ok pd ∧ fs.node pd = some Node.dir ∧
      fs2.node pd = some Node.dir ∧
      (∀ c, locate fs2 Mode.follow dest = .ok c → c = pd) ∧
      ∀ c, locate fs3 Mode.follow dest = .ok c → c = pd ∧ fs3.node pd = some Node.dir := by
  obtain ⟨pd, h0, hpd, hs, hgone⟩ := after_remove _ _ _ _ hrd hrm
  have hpd1 : fs1.node pd = some Node.dir := by
    rcases hs pd with h | h
    · rw [h]; exact hpd
    · exact absurd h.2 (not_child_self pd)
  obtain ⟨hf, _, hw, _, _⟩ := copyFiles_spec fs src dest pd (fun _ _ => True) h0 files2 fs1 fs2
    none (within_of_sub (shrunk_sub hs)) (fun name => Or.inl (hgone name)) (fun _ _ _ _ _ => trivial) hcp
  have hpd2 : fs2.node pd = some Node.dir := by
    rcases hf pd with h | h
    · rw [h]; exact hpd1
    · exact absurd h.2 (not_child_self pd)
  have hd2 := dest_after_copy fs fs1 fs2 dest pd h0 hs hgone hpd1 hf hw
  refine ⟨pd, h0, hpd, hpd2, hd2, fun c hc => ?_⟩
  have hsub := removeAll_sub _ _ _ _ hra
  have hc2 := hd2 c (locate_transfer_sub fs3 fs2 dest c hsub hc)
  subst hc2
  refine ⟨rfl, ?_⟩
  obtain ⟨nd, hnd, _⟩ := locate_follow_node _ _ _ hc
  have := hsub _ _ hnd
  rw [hpd2] at this
  injection this with this
  rw [hnd, this]

theorem filterMap_filter_keep {α β : Type} (f : α → Option β) (q : α → Bool) (l : List α)
    (h : ∀ a, f a ≠ none → q a = true) : (l.filter q).filterMap f = l.filterMap f := by
  induction l with
  | nil => rfl
  | cons a l ih =>
    by_cases hq : q a = true
    · simp [List.filter_cons, hq, List.filterMap_cons, ih]
    · have hf : f a = none := by
        by_contra hne
        exact hq (h a hne)
      simp [List.filter_cons, hq, List.filterMap_cons, hf, ih]

/-- Creating a node outside a directory leaves the list of its entries as it
was. -/
theorem children_set_other (fs : FS) (c L : Path) (n : Node) (hL : ¬ IsChild c L) :
    (fs.set L n).children c = fs.children c := by
  have hnone : childName c L = none := by
    cases hcn : childName c L with
    | none => rfl
    | some name => exact absurd ⟨name, (childName_eq_some _ _ _).1 hcn⟩ hL
  unfold FS.children FS.set
  simp only [List.filterMap_cons, hnone]
  rw [filterMap_filter_keep]
  intro e he
  have : e.1 ≠ L := by
    intro h
    rw [h] at he
    exact he hnone
  simp [this]

theorem children_nodup (fs : FS) (c : Path) : (fs.children c).Nodup := by
  unfold FS.children
  exact (List.perm_insertionSort _ _).nodup_iff.2 (List.nodup_dedup _)

theorem children_sorted (fs : FS) (c : Path) :
    (fs.children c).Sorted (fun a b : String => a.data ≤ b.data) := by
  unfold FS.children
  haveI : IsTotal String (fun a b : String => a.data ≤ b.data) :=
    ⟨fun a b => le_total a.data b.data⟩
  haveI : IsTrans String (fun a b : String => a.data ≤ b.data) :=
    ⟨fun a b c h1 h2 => le_trans h1 h2⟩
  exact List.sorted_insertionSort _ _

/-- The list of entries depends only on which names hold a node. -/
theorem children_congr (fs fs' : FS) (c c' : Path)
    (h : ∀ name, fs.node (c ++ [name]) ≠ none ↔ fs'.node (c' ++ [name]) ≠ none) :
    fs.children c = fs'.children c' := by
  haveI : IsAntisymm String (fun a b : String => a.data ≤ b.data) :=
    ⟨fun a b h1 h2 => by
      have := le_antisymm h1 h2
      cases a; cases b; simp_all⟩
  apply List.eq_of_perm_of_sorted _ (children_sorted fs c) (children_sorted fs' c')
  rw [List.perm_ext_iff_of_nodup (children_nodup fs c) (children_nodup fs' c')]
  intro name
  rw [mem_children, mem_children]
  exact h name

theorem within_trans {a b c : FS} (h1 : a.Within b) (h2 : b.Within c) : a.Within c := by
  intro x nd hx
  rcases h1 x nd hx with h | h
  · exact Or.inl h
  · exact h2 x nd h

theorem within_of_filled_empty {d : Path} {a b : FS} (h : Filled d a b)
    (hgone : ∀ name, a.node (d ++ [name]) = none) : a.Within b := by
  intro x nd hx
  rcases h x with h | h
  · right; rw [h]; exact hx
  · obtain ⟨name, hname⟩ := h.2
    rw [hname, hgone name] at hx
    cases hx

theorem within_of_shrunk_plain {d : Path} {a b : FS} (h : Shrunk d a b)
    (hplain : ∀ name, Plain (a.node (d ++ [name]))) : a.Within b := by
  intro x nd hx
  rcases h x with h | h
  · right; rw [h]; exact hx
  · obtain ⟨name, hname⟩ := h.2
    rcases hplain name with hp | ⟨b', hp⟩
    · rw [hname, hp] at hx
      cases hx
    · rw [hname, hp] at hx
      injection hx with hx
      exact Or.inl ⟨b', hx.symm⟩

theorem removeAll_of_locate (fs : FS) (p c : Path) (h : locate fs Mode.nofollow p = .ok c) :
    removeAll fs p =
      if c = [] then (some Errno.EBUSY, fs.removeTree c) else (none, fs.removeTree c) := by
  unfold removeAll
  simp [h]

theorem below_child (p d : Path) (name : String) (h : p <+: d ++ [name]) :
    p <+: d ∨ p = d ++ [name] := by
  rcases List.prefix_concat_iff.1 h with h | h
  · exact Or.inr h
  · exact Or.inl h

theorem child_inj (d : Path) (a b : String) (h : d ++ [a] = d ++ [b]) : a = b := by
  simpa using h

theorem child_parent (d d' : Path) (a b : String) (h : d ++ [a] = d' ++ [b]) : d = d' := by
  have := List.append_inj' h rfl
  exact this.1

/-- An `os.ReadFile` of an entry of `src` reads the directory `src` named at the
start, provided that entry is no link. -/
theorem read_at (fs0 fsi : FS) (src ps : Path) (name : String) (b : Bytes)
    (hW : fsi.Within fs0) (h0 : locate fs0 Mode.follow src = .ok ps)
    (hplain : ∀ t, fsi.node (ps ++ [name]) ≠ some (Node.symlink t))
    (h : readFile fsi (src ++ [name]) = .ok b) :
    fsi.node (ps ++ [name]) = some (Node.file b) := by
  obtain ⟨L, hL, hLn⟩ := readFile_ok _ _ _ h
  obtain ⟨c, hc, hcd, hlast⟩ := locate_split _ _ _ _ _ hL
  have hc0 := locate_transfer_dir fsi fs0 src c hW hcd hc
  rw [h0] at hc0
  injection hc0 with hc0
  subst hc0
  rcases hlast with hlast | ⟨_, t, ht⟩
  · rw [← hlast]; exact hLn
  · exact absurd ht (hplain t)

/-! ## What a run may touch -/

theorem remove_at_empty (fs0 fs fs' : FS) (dest pd : Path) (name : String)
    (h0 : locate fs0 Mode.follow dest = .ok pd) (hpd : fs0.node pd = some Node.dir)
    (hsub : ∀ x nd, fs.node x = some nd → fs0.node x = some nd)
    (h : remove fs (dest ++ [name]) = .ok fs')
    (hdir : fs.node (pd ++ [name]) = some Node.dir) :
    ∀ n, fs.node (pd ++ [name] ++ [n]) = none := by
  have hc0 : locate fs Mode.nofollow (dest ++ [name]) = .ok (pd ++ [name]) := by
    obtain ⟨c, hc, _, _, _⟩ := remove_ok _ _ _ h
    have hc0 := locate_transfer fs fs0 Mode.nofollow _ c (within_of_sub hsub) (Or.inl rfl) hc
    rw [locate_join fs0 Mode.nofollow dest name pd h0 hpd (Or.inl rfl)] at hc0
    have hf : ¬ (fs0.node (pd ++ [name]) = none ∧ Mode.nofollow = Mode.follow) :=
      fun hh => by cases hh.2
    rw [if_neg hf] at hc0
    injection hc0 with hc0
    rw [hc0]; exact hc
  unfold remove at h
  simp only [hc0, hdir] at h
  split at h
  · cases h
  · split at h
    · rename_i hch
      exact (children_eq_nil _ _).1 hch
    · cases h

/-- A directory that the first loop removes had no entries. -/
theorem removeFiles_empty (fs0 : FS) (dest pd : Path)
    (h0 : locate fs0 Mode.follow dest = .ok pd) (hpd : fs0.node pd = some Node.dir) :
    ∀ (names : List String) (fs fs' : FS) (err : Option Err),
      (∀ x nd, fs.node x = some nd → fs0.node x = some nd) →
      fs.node pd = some Node.dir →
      removeFiles dest names fs = (err, fs') →
      ∀ x, fs.node x = some Node.dir → fs'.node x ≠ some Node.dir →
        ∀ n, fs.node (x ++ [n]) = none := by
  intro names
  induction names with
  | nil =>
    intro fs fs' err _ _ h x hx hx'
    simp only [removeFiles] at h
    injection h with _ h2
    subst h2
    exact absurd hx hx'
  | cons name names ih =>
    intro fs fs' err hsub hpdfs h x hx hx'
    simp only [removeFiles] at h
    cases hr : remove fs (dest ++ [name]) with
    | error e =>
      simp only [hr] at h
      injection h with _ h2
      subst h2
      exact absurd hx hx'
    | ok fs1 =>
      simp only [hr] at h
      have hfs1 := remove_at fs0 fs fs1 dest pd name h0 hpd hsub hr
      have hs1 : Shrunk pd fs fs1 := hfs1 ▸ shrunk_erase pd fs name
      have hsub1 : ∀ x nd, fs1.node x = some nd → fs0.node x = some nd :=
        fun x nd hx => hsub x nd (shrunk_sub hs1 x nd hx)
      have hpd1 : fs1.node pd = some Node.dir := by
        rcases hs1 pd with h | h
        · rw [h]; exact hpdfs
        · exact absurd h.2 (not_child_self pd)
      by_cases hxe : x = pd ++ [name]
      · subst hxe
        exact remove_at_empty fs0 fs fs1 dest pd name h0 hpd hsub hr hx
      · have hx1 : fs1.node x = some Node.dir := by
          rw [hfs1, node_erase_other _ _ _ hxe]; exact hx
        intro n
        have hn1 := ih fs1 fs' err hsub1 hpd1 h x hx1 hx' n
        by_cases hxn : x ++ [n] = pd ++ [name]
        · exfalso
          have hxp : x = pd := child_parent _ _ _ _ hxn
          subst hxp
          obtain ⟨hs2, _, _⟩ := removeFiles_spec fs0 dest x h0 hpd names fs1 fs' err hsub1 h
          rcases hs2 x with h | h
          · exact hx' (h ▸ hpd1)
          · exact not_child_self x h.2
        · rw [hfs1, node_erase_other _ _ _ hxn] at hn1
          exact hn1

/-- Every change of a run is at an entry of the directory `dest`, where a
directory is removed only if empty, or at or below the location `src` names. -/
theorem run_frame {cwd : Path} (srcN destN : PathName) (src dest pd : Path)
    (hsn : srcN.full cwd = src) (hdn : destN.full cwd = dest)
    (fs fs' : FS) (err : Option Err)
    (hdest : locate fs Mode.follow dest = .ok pd)
    (hrun : emptyAndCopyFiles cwd srcN destN fs = (err, fs')) :
    ∀ x, fs'.node x = fs.node x ∨ Touched fs src pd x := by
  have hlink : ∀ (fsa fsb : FS) (e : Option Err), fsa.Within fs →
      (∀ x, fsa.node x = fs.node x ∨ Touched fs src pd x) →
      createSymLink cwd destN srcN fsa = (e, fsb) →
      ∀ x, fsb.node x = fs.node x ∨ Touched fs src pd x := by
    intro fsa fsb e hW hfr hl x
    cases e with
    | some e =>
      obtain ⟨hfs, _⟩ := createSymLink_err _ _ _ _ _ hl
      subst hfs
      exact hfr x
    | none =>
      obtain ⟨_, L, _, hL, _, hfs⟩ := createSymLink_ok _ _ _ _ hl
      rw [hsn] at hL
      have hL0 := locate_transfer fsa fs Mode.nofollow src L hW (Or.inl rfl) hL
      by_cases hx : x = L
      · exact Or.inr (Or.inr ⟨L, hL0, hx ▸ List.prefix_refl _⟩)
      · rw [hfs, node_set_other _ _ _ _ hx]
        exact hfr x
  rcases emptyAndCopyFiles_cases _ _ _ _ hsn hdn _ _ _ hrun with ⟨_, hl⟩ | ⟨e, _, _, _, hfs⟩ |
    ⟨_, ⟨e, _, _, hfs⟩ | ⟨files, hrd, ⟨e, hrm, _⟩ | ⟨fs1, hrm, ⟨e, _, _, hfs⟩ |
      ⟨files2, hrs, ⟨e, hcp, _⟩ | ⟨fs2, hcp, ⟨e, hra, _⟩ | ⟨fs3, hra, hl⟩⟩⟩⟩⟩⟩
  · exact hlink fs fs' err (fun x nd h => Or.inr h) (fun x => Or.inl rfl) hl
  · subst hfs; exact fun x => Or.inl rfl
  · subst hfs; exact fun x => Or.inl rfl
  · obtain ⟨pd', h0, hpd', _⟩ := readDir_ok _ _ _ hrd
    have hpp : pd' = pd := by rw [hdest] at h0; injection h0 with h0; exact h0.symm
    subst hpp
    obtain ⟨hs, _, _⟩ := removeFiles_spec fs dest pd' h0 hpd' files fs fs' _ (fun _ _ h => h) hrm
    have hem := removeFiles_empty fs dest pd' h0 hpd' files fs fs' _ (fun _ _ h => h) hpd' hrm
    intro x
    rcases hs x with h | h
    · exact Or.inl h
    · refine Or.inr (Or.inl ⟨h.2, fun hx => hem x hx ?_⟩)
      rw [h.1]
      exact fun hh => by cases hh
  all_goals
    obtain ⟨pd', h0, hpd', hs, hgone⟩ := after_remove _ _ _ _ hrd hrm
    have hpp : pd' = pd := by rw [hdest] at h0; injection h0 with h0; exact h0.symm
    subst hpp
    have hem := removeFiles_empty fs dest pd' h0 hpd' files fs fs1 _ (fun _ _ h => h) hpd' hrm
    have hch : ∀ x, IsChild pd' x → Touched fs src pd' x := by
      intro x hx
      refine Or.inl ⟨hx, fun hxd => hem x hxd ?_⟩
      obtain ⟨n, hn⟩ := hx
      rw [hn, hgone n]
      exact fun hh => by cases hh
    have hfr1 : ∀ x, fs1.node x = fs.node x ∨ Touched fs src pd' x := by
      intro x
      rcases hs x with h | h
      · exact Or.inl h
      · exact Or.inr (hch x h.2)
  · subst hfs; exact hfr1
  all_goals
    obtain ⟨hf, _, _, _, _⟩ := copyFiles_spec fs src dest pd' (fun _ _ => True) h0 files2 fs1 _
      _ (within_of_sub (shrunk_sub hs)) (fun name => Or.inl (hgone name)) (fun _ _ _ _ _ => trivial) hcp
    have hfr2 : ∀ x, _ := fun x => (hf x).elim (fun h => h ▸ hfr1 x) (fun h => Or.inr (hch x h.2))
  · exact hfr2
  all_goals
    have hW2 := within_filled (within_of_sub (shrunk_sub hs)) hf
    have hfr3 : ∀ (e3 : Option Errno) (fs3 : FS), removeAll fs2 src = (e3, fs3) →
        ∀ x, fs3.node x = fs.node x ∨ Touched fs src pd' x := by
      intro e3 fs3 hra x
      rcases removeAll_cases _ _ _ _ hra with h | ⟨c, hc, h, _⟩
      · rw [h]; exact hfr2 x
      · have hc0 := locate_transfer fs2 fs Mode.nofollow src c hW2 (Or.inl rfl) hc
        by_cases hb : c <+: x
        · exact Or.inr (Or.inr ⟨c, hc0, hb⟩)
        · rw [h, node_removeTree_other _ _ _ hb]
          exact hfr2 x
  · exact hfr3 _ _ hra
  · exact hlink fs3 fs' err
      (within_trans (within_of_sub (removeAll_sub _ _ _ _ hra)) hW2) (hfr3 _ _ hra) hl

/-- A run that stops with an error raised before the removal of `src` has
changed entries of the directory `dest` only, and such an entry, if it was a
directory, was an empty one. -/
theorem run_frame_early {cwd : Path} (srcN destN : PathName) (src dest pd : Path)
    (hsn : srcN.full cwd = src) (hdn : destN.full cwd = dest)
    (fs fs' : FS) (e : Err)
    (hdest : locate fs Mode.follow dest = .ok pd)
    (hrun : emptyAndCopyFiles cwd srcN destN fs = (some e, fs')) (he : e.beforeRemoval = true) :
    ∀ x, fs'.node x = fs.node x ∨
      (IsChild pd x ∧ (fs.node x = some Node.dir → ∀ n, fs.node (x ++ [n]) = none)) := by
  have hlink : ∀ fsa, createSymLink cwd destN srcN fsa = (some e, fs') → False := by
    intro fsa hl
    obtain ⟨_, h | ⟨c, h⟩ | ⟨c, h⟩⟩ := createSymLink_err _ _ _ _ _ hl <;>
      · rw [h] at he
        cases he
  rcases emptyAndCopyFiles_cases _ _ _ _ hsn hdn _ _ _ hrun with ⟨_, hl⟩ | ⟨e', _, _, hee, hfs⟩ |
    ⟨_, ⟨e', _, _, hfs⟩ | ⟨files, hrd, ⟨e', hrm, _⟩ | ⟨fs1, hrm, ⟨e', _, _, hfs⟩ |
      ⟨files2, hrs, ⟨e', hcp, _⟩ | ⟨fs2, hcp, ⟨e', hra, hee⟩ | ⟨fs3, hra, hl⟩⟩⟩⟩⟩⟩
  · exact absurd (hlink _ hl) id
  · injection hee with hee
    rw [hee] at he
    cases he
  · subst hfs; exact fun x => Or.inl rfl
  · obtain ⟨pd', h0, hpd', _⟩ := readDir_ok _ _ _ hrd
    have hpp : pd' = pd := by rw [hdest] at h0; injection h0 with h0; exact h0.symm
    subst hpp
    obtain ⟨hs, _, _⟩ := removeFiles_spec fs dest pd' h0 hpd' files fs fs' _ (fun _ _ h => h) hrm
    have hem := removeFiles_empty fs dest pd' h0 hpd' files fs fs' _ (fun _ _ h => h) hpd' hrm
    intro x
    rcases hs x with h | h
    · exact Or.inl h
    · refine Or.inr ⟨h.2, fun hx => hem x hx ?_⟩
      rw [h.1]
      exact fun hh => by cases hh
  all_goals
    obtain ⟨pd', h0, hpd', hs, hgone⟩ := after_remove _ _ _ _ hrd hrm
    have hpp : pd' = pd := by rw [hdest] at h0; injection h0 with h0; exact h0.symm
    subst hpp
    have hem := removeFiles_empty fs dest pd' h0 hpd' files fs fs1 _ (fun _ _ h => h) hpd' hrm
    have hch : ∀ x, IsChild pd' x →
        (fs.node x = some Node.dir → ∀ n, fs.node (x ++ [n]) = none) := by
      intro x hx hxd
      refine hem x hxd ?_
      obtain ⟨n, hn⟩ := hx
      rw [hn, hgone n]
      exact fun hh => by cases hh
    have hfr1 : ∀ x, fs1.node x = fs.node x ∨
        (IsChild pd' x ∧ (fs.node x = some Node.dir → ∀ n, fs.node (x ++ [n]) = none)) :=
      fun x => (hs x).elim Or.inl (fun h => Or.inr ⟨h.2, hch x h.2⟩)
  · subst hfs; exact hfr1
  · obtain ⟨hf, _, _, _, _⟩ := copyFiles_spec fs src dest pd' (fun _ _ => True) h0 files2 fs1 _
      _ (within_of_sub (shrunk_sub hs)) (fun name => Or.inl (hgone name)) (fun _ _ _ _ _ => trivial) hcp
    exact fun x => (hf x).elim (fun h => h ▸ hfr1 x) (fun h => Or.inr ⟨h.2, hch x h.2⟩)
  · injection hee with hee
    rw [hee] at he
    cases he
  · exact absurd (hlink _ hl) id

/-- A lookup that ends at an existing node is not affected by changes at
locations that held a plain file, nothing, or an empty directory, as long as
the node it ends at is not among them. -/
theorem walk_stable (fs fs' : FS) (m : Mode) (c : Path)
    (hch : ∀ x, fs'.node x = fs.node x ∨ Plain (fs.node x) ∨
      (fs.node x = some Node.dir ∧ ∀ n, fs.node (x ++ [n]) = none))
    (hc : fs'.node c = fs.node c) (hcn : fs.node c ≠ none) :
    ∀ n cur rest, walk fs m n cur rest = .ok c → walk fs' m n cur rest = .ok c := by
  apply walk_induct
  · intro n cur h
    rw [walk_nil] at h ⊢
    exact h
  · intro n cur a rest ihd ihl h
    rw [walk_cons] at h
    rw [walk_cons]
    by_cases heq : fs'.node (cur ++ [a]) = fs.node (cur ++ [a])
    · rw [heq]
      cases hnode : fs.node (cur ++ [a]) with
      | none => simpa [hnode] using h
      | some nd =>
        cases nd with
        | dir =>
          simp only [hnode] at h ⊢
          exact ihd h
        | file b => simpa [hnode] using h
        | symlink t =>
          simp only [hnode] at h ⊢
          split
          · rename_i hcnd
            simpa [hcnd] using h
          · rename_i hcnd
            simp only [hcnd, if_false] at h
            cases n with
            | zero => cases h
            | succ k => exact ihl k _ _ rfl h
    · exfalso
      have hne : cur ++ [a] ≠ c := fun hh => heq (hh ▸ hc)
      rcases hch (cur ++ [a]) with h1 | h1 | ⟨h1, hempty⟩
      · exact heq h1
      · rcases h1 with h1 | ⟨b, h1⟩
        · simp only [h1] at h
          split at h
          · injection h with h
            exact hne h
          · cases h
        · simp only [h1] at h
          split at h
          · injection h with h
            exact hne h
          · cases h
      · simp only [h1] at h
        cases rest with
        | nil =>
          rw [walk_nil] at h
          injection h with h
          exact hne h
        | cons a' r =>
          rw [walk_cons, hempty a'] at h
          simp only at h
          split at h
          · injection h with h
            exact hcn (h ▸ hempty a')
          · cases h

/-- After a run that stops with an error raised before the removal of `src`, a
path still leads where it led, when that is an existing node other than an
entry of the directory `dest` and no entry of that directory is a link. -/
theorem run_early_lookup {cwd : Path} (srcN destN : PathName) (src dest pd : Path)
    (hsn : srcN.full cwd = src) (hdn : destN.full cwd = dest)
    (fs fs' : FS) (e : Err)
    (hdest : locate fs Mode.follow dest = .ok pd)
    (hrun : emptyAndCopyFiles cwd srcN destN fs = (some e, fs')) (he : e.beforeRemoval = true)
    (hnl : ∀ name t, fs.node (pd ++ [name]) ≠ some (Node.symlink t))
    (m : Mode) (p c : Path) (hc : ¬ IsChild pd c) (hcn : fs.node c ≠ none)
    (h : locate fs m p = .ok c) : locate fs' m p = .ok c := by
  have hfr := run_frame_early srcN destN src dest pd hsn hdn fs fs' e hdest hrun he
  refine walk_stable fs fs' m c (fun x => ?_) ?_ hcn _ _ _ h
  · rcases hfr x with hx | ⟨⟨name, hx⟩, hem⟩
    · exact Or.inl hx
    · right
      cases hnode : fs.node x with
      | none => exact Or.inl (Or.inl rfl)
      | some nd =>
        cases nd with
        | file b => exact Or.inl (Or.inr ⟨b, rfl⟩)
        | dir => exact Or.inr ⟨rfl, hem hnode⟩
        | symlink t =>
          rw [hx] at hnode
          exact absurd hnode (hnl name t)
  · rcases hfr c with hx | ⟨hx, _⟩
    · exact hx
    · exact absurd hx hc

/-- When a run removes the directory `src` names, every plain file of that
directory has been written to `dest` before. -/
theorem run_src_removed {cwd : Path} (srcN destN : PathName) (src dest ls pd : Path)
    (hsn : srcN.full cwd = src) (hdn : destN.full cwd = dest)
    (fs fs' : FS) (err : Option Err)
    (hsrc : locate fs Mode.nofollow src = .ok ls) (hls : fs.node ls = some Node.dir)
    (hdest : locate fs Mode.follow dest = .ok pd) (hsep : ¬ ls <+: pd)
    (hrun : emptyAndCopyFiles cwd srcN destN fs = (err, fs'))
    (hrem : fs'.node ls ≠ some Node.dir) :
    ∀ name b, fs.node (ls ++ [name]) = some (Node.file b) →
      fs'.node (pd ++ [name]) = some (Node.file b) := by
  intro name b hfile
  have hsf : locate fs Mode.follow src = .ok ls :=
    locate_nofollow_real fs src ls Node.dir hsrc hls (fun t ht => by cases ht)
  have hstat : stat fs src = .ok Node.dir := stat_of_locate _ _ _ _ hsf hls
  have hnepd : ls ≠ pd := fun h => hsep (h ▸ List.prefix_refl _)
  have hvac : (∀ n, fs.node (ls ++ [n]) = none) → False := by
    intro h
    rw [h name] at hfile
    cases hfile
  rcases emptyAndCopyFiles_cases _ _ _ _ hsn hdn _ _ _ hrun with ⟨hne, _⟩ | ⟨e, hne, _, _, _⟩ |
    ⟨_, ⟨e, _, _, hfs⟩ | ⟨files, hrd, ⟨e, hrm, _⟩ | ⟨fs1, hrm, hrest⟩⟩⟩
  · rw [hstat] at hne; cases hne
  · rw [hstat] at hne; cases hne
  · subst hfs; exact absurd hls hrem
  · obtain ⟨pd', h0, hpd', _⟩ := readDir_ok _ _ _ hrd
    have hpp : pd' = pd := by rw [hdest] at h0; injection h0 with h0; exact h0.symm
    subst hpp
    exact absurd (removeFiles_empty fs dest pd' h0 hpd' files fs fs' _ (fun _ _ h => h) hpd' hrm
      ls hls hrem) hvac
  obtain ⟨pd', h0, hpd', hs, hgone⟩ := after_remove _ _ _ _ hrd hrm
  have hpp : pd' = pd := by rw [hdest] at h0; injection h0 with h0; exact h0.symm
  subst hpp
  by_cases hls1 : fs1.node ls = some Node.dir
  swap
  · exact absurd (removeFiles_empty fs dest pd' h0 hpd' files fs fs1 _ (fun _ _ h => h) hpd' hrm
      ls hls hls1) hvac
  have hnc : ¬ IsChild pd' ls := by
    rintro ⟨n, hn⟩
    rw [hn, hgone n] at hls1
    cases hls1
  have hW10 : fs1.Within fs := within_of_sub (shrunk_sub hs)
  have hsame1 : ∀ n, fs1.node (ls ++ [n]) = fs.node (ls ++ [n]) := by
    intro n
    rcases hs (ls ++ [n]) with h | h
    · exact h
    · obtain ⟨n', hn'⟩ := h.2
      exact absurd (child_parent _ _ _ _ hn') hnepd
  rcases hrest with ⟨e, _, _, hfs⟩ | ⟨files2, hrs, hrest⟩
  · subst hfs; exact absurd hls1 hrem
  obtain ⟨c2, hc2, hc2d, hfiles2⟩ := readDir_ok _ _ _ hrs
  have hc2ls : c2 = ls := by
    have := locate_transfer_dir fs1 fs src c2 hW10 hc2d hc2
    rw [hsf] at this
    injection this with this
    exact this.symm
  subst hc2ls
  have hcopy : ∀ (e2 : Option Err) (fs2 : FS), copyFiles src dest files2 fs1 = (e2, fs2) →
      fs2.node c2 = some Node.dir ∧ fs2.Within fs ∧
        (e2 = none → fs2.node (pd' ++ [name]) = some (Node.file b)) := by
    intro e2 fs2 hcp
    obtain ⟨hf, _, _, _, hgood⟩ := copyFiles_spec fs src dest pd'
      (fun n b' => ∀ b0, fs.node (c2 ++ [n]) = some (Node.file b0) → b' = b0) h0 files2 fs1 fs2
      e2 hW10 (fun n => Or.inl (hgone n))
      (by
        intro fsi hfi n b' hr b0 hb0
        have hWi : fsi.Within fs := within_filled hW10 hfi
        have hsamei : fsi.node (c2 ++ [n]) = some (Node.file b0) := by
          rcases hfi (c2 ++ [n]) with h | h
          · rw [h, hsame1 n]; exact hb0
          · obtain ⟨n', hn'⟩ := h.2
            exact absurd (child_parent _ _ _ _ hn') hnepd
        have := read_at fs fsi src c2 n b' hWi hsf (by
          intro t ht
          rw [hsamei] at ht
          cases ht) hr
        rw [hsamei] at this
        injection this with this
        injection this with this
        exact this.symm)
      hcp
    refine ⟨?_, within_filled hW10 hf, fun he => ?_⟩
    · rcases hf c2 with h | h
      · rw [h]; exact hls1
      · exact absurd h.2 hnc
    · have hmem : name ∈ files2 := by
        rw [hfiles2]
        apply (mem_children fs1 c2 name).2
        rw [hsame1 name, hfile]
        exact fun hh => by cases hh
      obtain ⟨b', hb', hb2⟩ := hgood he name hmem
      rw [hb2, hb' b hfile]
  rcases hrest with ⟨e, hcp, _⟩ | ⟨fs2, hcp, hrest⟩
  · exact absurd (hcopy _ _ hcp).1 hrem
  obtain ⟨hls2, hW2, hnode2⟩ := hcopy _ _ hcp
  have hnode2 := hnode2 rfl
  have hnb : ¬ c2 <+: pd' ++ [name] := by
    intro hb
    rcases below_child _ _ _ hb with hb | hb
    · exact hsep hb
    · exact hnc ⟨name, hb⟩
  have hra' : ∀ (e3 : Option Errno) (fs3 : FS), removeAll fs2 src = (e3, fs3) →
      (fs3 = fs2 ∨ fs3 = fs2.removeTree c2) ∧ fs3.Within fs ∧
        fs3.node (pd' ++ [name]) = some (Node.file b) := by
    intro e3 fs3 hra
    have hW3 : fs3.Within fs := within_trans (within_of_sub (removeAll_sub _ _ _ _ hra)) hW2
    rcases removeAll_cases _ _ _ _ hra with h | ⟨c, hc, h, _⟩
    · exact ⟨Or.inl h, hW3, h ▸ hnode2⟩
    · have hc0 := locate_transfer fs2 fs Mode.nofollow src c hW2 (Or.inl rfl) hc
      rw [hsrc] at hc0
      injection hc0 with hc0
      subst hc0
      refine ⟨Or.inr h, hW3, ?_⟩
      rw [h, node_removeTree_other _ _ _ hnb]
      exact hnode2
  rcases hrest with ⟨e, hra, _⟩ | ⟨fs3, hra, hl⟩
  · obtain ⟨hcase, _, hnode3⟩ := hra' _ _ hra
    exact hnode3
  · obtain ⟨hcase, hW3, hnode3⟩ := hra' _ _ hra
    cases err with
    | some e =>
      obtain ⟨hfs, _⟩ := createSymLink_err _ _ _ _ _ hl
      rw [hfs]; exact hnode3
    | none =>
      obtain ⟨_, L, _, hL, _, hfs⟩ := createSymLink_ok _ _ _ _ hl
      rw [hsn] at hL
      have hL0 := locate_transfer fs3 fs Mode.nofollow src L hW3 (Or.inl rfl) hL
      rw [hsrc] at hL0
      injection hL0 with hL0
      subst hL0
      rw [hfs, node_set_other _ _ _ _ (fun h => hnc ⟨name, h.symm⟩)]
      exact hnode3

/-- Every location strictly above the one a lookup ends at is a directory. -/
theorem walk_above_dirs (fs : FS) (m : Mode) (c : Path) :
    ∀ n cur rest, (∀ q, q <+: cur → fs.node q = some Node.dir) →
      walk fs m n cur rest = .ok c → ∀ q, q <+: c → q ≠ c → fs.node q = some Node.dir := by
  have hlast : ∀ (cur : Path) (a : String), (∀ q, q <+: cur → fs.node q = some Node.dir) →
      ∀ q, q <+: cur ++ [a] → q ≠ cur ++ [a] → fs.node q = some Node.dir := by
    intro cur a hcur q hq hne
    rcases below_child _ _ _ hq with h | h
    · exact hcur q h
    · exact absurd h hne
  apply walk_induct
  · intro n cur hcur h q hq hne
    rw [walk_nil] at h
    injection h with h
    subst h
    exact hcur q hq
  · intro n cur a rest ihd ihl hcur h
    rw [walk_cons] at h
    cases hnode : fs.node (cur ++ [a]) with
    | none =>
      simp only [hnode] at h
      split at h
      · injection h with h
        subst h
        exact hlast cur a hcur
      · cases h
    | some nd =>
      cases nd with
      | dir =>
        simp only [hnode] at h
        refine ihd (fun q hq => ?_) h
        rcases below_child _ _ _ hq with hq | hq
        · exact hcur q hq
        · rw [hq]; exact hnode
      | file b =>
        simp only [hnode] at h
        split at h
        · injection h with h
          subst h
          exact hlast cur a hcur
        · cases h
      | symlink t =>
        simp only [hnode] at h
        split at h
        · injection h with h
          subst h
          exact hlast cur a hcur
        · cases n with
          | zero => cases h
          | succ k =>
            refine ihl k _ _ rfl (fun q hq => ?_) h
            rcases linkBase_cases cur t with hb | hb
            · rw [hb] at hq
              have : q = [] := by simpa using hq
              rw [this]; exact node_root fs
            · rw [hb] at hq
              exact hcur q hq

theorem locate_above_dirs (fs : FS) (m : Mode) (p c : Path) (h : locate fs m p = .ok c) :
    ∀ q, q <+: c → q ≠ c → fs.node q = some Node.dir :=
  walk_above_dirs fs m c _ _ _ (fun q hq => by
    have : q = [] := by simpa using hq
    rw [this]; exact node_root fs) h

/-- The directory `dest`, located strictly below the location `src` names,
stops the run before the removal of `src`: the second loop cannot read the
directory on the way to `dest` as a file. -/
theorem run_nested_early {cwd : Path} (srcN destN : PathName) (src dest ls pd : Path)
    (hsn : srcN.full cwd = src) (hdn : destN.full cwd = dest)
    (fs fs' : FS) (err : Option Err)
    (hsrc : locate fs Mode.nofollow src = .ok ls)
    (hdest : locate fs Mode.follow dest = .ok pd) (hpd : fs.node pd = some Node.dir)
    (hb : ls <+: pd) (hne : ls ≠ pd)
    (hrun : emptyAndCopyFiles cwd srcN destN fs = (err, fs')) :
    ∀ x, fs'.node x = fs.node x ∨ IsChild pd x := by
  have hls : fs.node ls = some Node.dir := locate_above_dirs fs _ dest pd hdest ls hb hne
  have hsf : locate fs Mode.follow src = .ok ls :=
    locate_nofollow_real fs src ls Node.dir hsrc hls (fun t ht => by cases ht)
  have hstat : stat fs src = .ok Node.dir := stat_of_locate _ _ _ _ hsf hls
  -- the entry of `src` on the way to `dest`
  obtain ⟨n, hn, hnd⟩ : ∃ n, ls ++ [n] <+: pd ∧ fs.node (ls ++ [n]) = some Node.dir := by
    obtain ⟨t, ht⟩ := hb
    cases t with
    | nil => exact absurd (by simpa using ht) hne
    | cons n t =>
      have hpre : ls ++ [n] <+: pd := ⟨t, by rw [← ht]; simp⟩
      refine ⟨n, hpre, ?_⟩
      by_cases he : ls ++ [n] = pd
      · rw [he]; exact hpd
      · exact locate_above_dirs fs _ dest pd hdest _ hpre he
  have hnc : ∀ m, ls ++ [n] ≠ pd ++ [m] := by
    intro m h
    exact hne (child_parent _ _ _ _ h)
  rcases emptyAndCopyFiles_cases _ _ _ _ hsn hdn _ _ _ hrun with ⟨hne', _⟩ | ⟨e, hne', _, _, _⟩ |
    ⟨_, ⟨e, _, _, hfs⟩ | ⟨files, hrd, ⟨e, hrm, _⟩ | ⟨fs1, hrm, hrest⟩⟩⟩
  · rw [hstat] at hne'; cases hne'
  · rw [hstat] at hne'; cases hne'
  · subst hfs; exact fun x => Or.inl rfl
  · obtain ⟨pd', h0, hpd', _⟩ := readDir_ok _ _ _ hrd
    have hpp : pd' = pd := by rw [hdest] at h0; injection h0 with h0; exact h0.symm
    subst hpp
    obtain ⟨hs, _, _⟩ := removeFiles_spec fs dest pd' h0 hpd' files fs fs' _ (fun _ _ h => h) hrm
    exact fun x => (hs x).elim Or.inl (fun h => Or.inr h.2)
  obtain ⟨pd', h0, hpd', hs, hgone⟩ := after_remove _ _ _ _ hrd hrm
  have hpp : pd' = pd := by rw [hdest] at h0; injection h0 with h0; exact h0.symm
  subst hpp
  have hfr1 : ∀ x, fs1.node x = fs.node x ∨ IsChild pd' x :=
    fun x => (hs x).elim Or.inl (fun h => Or.inr h.2)
  have hW10 : fs1.Within fs := within_of_sub (shrunk_sub hs)
  rcases hrest with ⟨e, _, _, hfs⟩ | ⟨files2, hrs, hrest⟩
  · subst hfs; exact hfr1
  have hcopy : ∀ (e2 : Option Err) (fs2 : FS), copyFiles src dest files2 fs1 = (e2, fs2) →
      (∀ x, fs2.node x = fs.node x ∨ IsChild pd' x) ∧ e2 ≠ none := by
    intro e2 fs2 hcp
    obtain ⟨hf, _, _, _, hgood⟩ := copyFiles_spec fs src dest pd'
      (fun n' _ => n' ≠ n) h0 files2 fs1 fs2 e2 hW10 (fun m => Or.inl (hgone m))
      (by
        intro fsi hfi n' b' hr hnn
        subst hnn
        have hWi : fsi.Within fs := within_filled hW10 hfi
        have hdi : fsi.node (ls ++ [n']) = some Node.dir := by
          rcases hfi (ls ++ [n']) with h | h
          · rw [h]
            rcases hs (ls ++ [n']) with h' | h'
            · rw [h']; exact hnd
            · obtain ⟨m, hm⟩ := h'.2
              exact absurd hm (hnc m)
          · obtain ⟨m, hm⟩ := h.2
            exact absurd hm (hnc m)
        have := read_at fs fsi src ls n' b' hWi hsf (by
          intro t ht
          rw [hdi] at ht
          cases ht) hr
        rw [hdi] at this
        cases this)
      hcp
    refine ⟨fun x => (hf x).elim (fun h => h ▸ hfr1 x) (fun h => Or.inr h.2), fun he => ?_⟩
    obtain ⟨c2, hc2, hc2d, hfiles2⟩ := readDir_ok _ _ _ hrs
    have hc2ls : c2 = ls := by
      have := locate_transfer_dir fs1 fs src c2 hW10 hc2d hc2
      rw [hsf] at this
      injection this with this
      exact this.symm
    subst hc2ls
    have hmem : n ∈ files2 := by
      rw [hfiles2]
      apply (mem_children fs1 c2 n).2
      rcases hs (c2 ++ [n]) with h' | h'
      · rw [h', hnd]
        exact fun hh => by cases hh
      · obtain ⟨m, hm⟩ := h'.2
        exact absurd hm (hnc m)
    obtain ⟨_, hbad, _⟩ := hgood he n hmem
    exact hbad rfl
  rcases hrest with ⟨e, hcp, _⟩ | ⟨fs2, hcp, _⟩
  · exact (hcopy _ _ hcp).1
  · exact absurd rfl (hcopy _ _ hcp).2

/-! ## A run on two directories of plain files succeeds -/

/-- Removing a directory that holds plain files only does not change a lookup
that ends outside of it, nor one that names the directory itself. -/
theorem walk_avoid (fs : FS) (m : Mode) (ps c : Path) (hps0 : ps ≠ [])
    (hps : fs.node ps = some Node.dir) (hplain : ∀ a, Plain (fs.node (ps ++ [a])))
    (hc : ¬ ps <+: c ∨ (m = Mode.nofollow ∧ c = ps)) :
    ∀ n cur rest, ¬ ps <+: cur → walk fs m n cur rest = .ok c →
      walk (fs.removeTree ps) m n cur rest = .ok c := by
  apply walk_induct
  · intro n cur _ h
    rw [walk_nil] at h ⊢
    exact h
  · intro n cur a rest ihd ihl hcur h
    rw [walk_cons] at h
    rw [walk_cons]
    by_cases hb : ps <+: cur ++ [a]
    · -- this step is at the directory itself
      have hpa : ps = cur ++ [a] := by
        rcases below_child _ _ _ hb with h' | h'
        · exact absurd h' hcur
        · exact h'
      have hgone : (fs.removeTree ps).node (cur ++ [a]) = none :=
        node_removeTree_below _ _ _ (by simp) hb
      rw [← hpa] at h
      simp only [hps] at h
      cases rest with
      | nil =>
        rw [walk_nil] at h
        injection h with h
        rcases hc with hc | ⟨hm, _⟩
        · exact absurd (h ▸ List.prefix_refl ps) hc
        · have hca : cur ++ [a] = c := hpa ▸ h
          simp only [hgone, hm]
          simp [hca]
      | cons a' rest' =>
        exfalso
        rw [walk_cons] at h
        have hbad : ∀ x, ps ++ [a'] = x → x = c → False := by
          intro x hx hxc
          rcases hc with hc | ⟨_, hc⟩
          · exact hc (hxc ▸ hx ▸ List.prefix_append ps [a'])
          · have := congrArg List.length (hx.trans (hxc.trans hc))
            simp at this
        rcases hplain a' with hp | ⟨b, hp⟩
        · simp only [hp] at h
          split at h
          · injection h with h
            exact hbad _ rfl h
          · cases h
        · simp only [hp] at h
          split at h
          · injection h with h
            exact hbad _ rfl h
          · cases h
    · rw [node_removeTree_other _ _ _ hb]
      cases hnode : fs.node (cur ++ [a]) with
      | none => simpa [hnode] using h
      | some nd =>
        cases nd with
        | dir =>
          simp only [hnode] at h ⊢
          exact ihd hb h
        | file b => simpa [hnode] using h
        | symlink t =>
          simp only [hnode] at h ⊢
          split
          · rename_i hcnd
            simpa [hcnd] using h
          · rename_i hcnd
            simp only [hcnd, if_false] at h
            cases n with
            | zero => cases h
            | succ k =>
              refine ihl k _ _ rfl (fun hh => ?_) h
              rcases linkBase_cases cur t with hb' | hb'
              · rw [hb'] at hh
                exact hps0 (by simpa using hh)
              · rw [hb'] at hh
                exact hcur hh

/-- The first loop runs through when the listed names are distinct entries of
`dest`, all plain files. -/
theorem removeFiles_ok (fs0 : FS) (dest pd : Path)
    (h0 : locate fs0 Mode.follow dest = .ok pd) (hpd : fs0.node pd = some Node.dir)
    (hD : ∀ name, Plain (fs0.node (pd ++ [name]))) :
    ∀ (names : List String) (fs : FS), names.Nodup → Shrunk pd fs0 fs →
      (∀ name ∈ names, fs.node (pd ++ [name]) ≠ none) →
      ∃ fs', removeFiles dest names fs = (none, fs') := by
  intro names
  induction names with
  | nil =>
    intro fs _ _ _
    exact ⟨fs, rfl⟩
  | cons name names ih =>
    intro fs hnd hs hall
    have hW : fs0.Within fs := within_of_shrunk_plain hs hD
    have hpdfs : fs.node pd = some Node.dir := by
      rcases hs pd with h | h
      · rw [h]; exact hpd
      · exact absurd h.2 (not_child_self pd)
    have hd : locate fs Mode.follow dest = .ok pd := locate_transfer_dir fs0 fs dest pd hW hpd h0
    have hloc : locate fs Mode.nofollow (dest ++ [name]) = .ok (pd ++ [name]) := by
      rw [locate_join fs Mode.nofollow dest name pd hd hpdfs (Or.inl rfl)]
      exact if_neg (fun hh => by cases hh.2)
    have hne := hall name (List.mem_cons_self _ _)
    have hfile : ∃ b, fs.node (pd ++ [name]) = some (Node.file b) := by
      rcases hs (pd ++ [name]) with h | h
      · rcases hD name with hp | hp
        · rw [h, hp] at hne; exact absurd rfl hne
        · rw [h]; exact hp
      · exact absurd h.1 hne
    obtain ⟨b, hb⟩ := hfile
    have hrm : remove fs (dest ++ [name]) = .ok (fs.erase (pd ++ [name])) := by
      unfold remove
      simp [hloc, hb]
    have hs1 : Shrunk pd fs0 (fs.erase (pd ++ [name])) := shrunk_trans hs (shrunk_erase pd fs name)
    obtain ⟨fs', hfs'⟩ := ih (fs.erase (pd ++ [name])) (List.nodup_cons.1 hnd).2 hs1 (by
      intro n hn
      have hnn : n ≠ name := fun h => (List.nodup_cons.1 hnd).1 (h ▸ hn)
      rw [node_erase_other _ _ _ (fun h => hnn (child_inj _ _ _ h))]
      exact hall n (List.mem_cons_of_mem _ hn))
    exact ⟨fs', by simp only [removeFiles, hrm]; exact hfs'⟩

/-- The second loop runs through when the listed names are plain files of `src`
and `dest` holds plain files only. -/
theorem copyFiles_ok (fs0 : FS) (src dest ps pd : Path)
    (hsf : locate fs0 Mode.follow src = .ok ps) (hps : fs0.node ps = some Node.dir)
    (h0 : locate fs0 Mode.follow dest = .ok pd) (hpd : fs0.node pd = some Node.dir)
    (hpp : ps ≠ pd) :
    ∀ (names : List String) (fs : FS), fs0.Within fs →
      (∀ x, ¬ IsChild pd x → fs.node x = fs0.node x) →
      (∀ name, Plain (fs.node (pd ++ [name]))) →
      (∀ name ∈ names, ∃ b, fs0.node (ps ++ [name]) = some (Node.file b)) →
      ∃ fs', copyFiles src dest names fs = (none, fs') := by
  intro names
  induction names with
  | nil =>
    intro fs _ _ _ _
    exact ⟨fs, rfl⟩
  | cons name names ih =>
    intro fs hW hout hplain hall
    have hnps : ¬ IsChild pd ps := by
      rintro ⟨n, hn⟩
      rcases hplain n with hp | ⟨b, hp⟩
      · have := hW ps Node.dir hps
        rw [hn, hp] at this
        rcases this with ⟨b, hb⟩ | h
        · cases hb
        · cases h
      · have := hW ps Node.dir hps
        rw [hn, hp] at this
        rcases this with ⟨b', hb'⟩ | h
        · cases hb'
        · cases h
    have hpsfs : fs.node ps = some Node.dir := (hout ps hnps).trans hps
    have hpdfs : fs.node pd = some Node.dir := (hout pd (not_child_self pd)).trans hpd
    have hs : locate fs Mode.follow src = .ok ps := locate_transfer_dir fs0 fs src ps hW hps hsf
    have hd : locate fs Mode.follow dest = .ok pd := locate_transfer_dir fs0 fs dest pd hW hpd h0
    obtain ⟨b, hb⟩ := hall name (List.mem_cons_self _ _)
    have hbfs : fs.node (ps ++ [name]) = some (Node.file b) := by
      rw [hout _ (fun ⟨n, hn⟩ => hpp (child_parent _ _ _ _ hn))]
      exact hb
    have hrd : readFile fs (src ++ [name]) = .ok b := by
      have hloc : locate fs Mode.follow (src ++ [name]) = .ok (ps ++ [name]) := by
        rw [locate_join fs Mode.follow src name ps hs hpsfs
          (Or.inr (fun t ht => by rw [hbfs] at ht; cases ht))]
        exact if_neg (fun hh => by rw [hbfs] at hh; cases hh.1)
      unfold readFile
      simp [hloc, hbfs]
    have hwr : writeFile fs (dest ++ [name]) b = .ok (fs.set (pd ++ [name]) (Node.file b)) := by
      have hnl : ∀ t, fs.node (pd ++ [name]) ≠ some (Node.symlink t) := by
        intro t ht
        rcases hplain name with hp | ⟨b', hp⟩
        · rw [hp] at ht; cases ht
        · rw [hp] at ht; cases ht
      have hloc : locate fs Mode.create (dest ++ [name]) = .ok (pd ++ [name]) := by
        rw [locate_join fs Mode.create dest name pd hd hpdfs (Or.inr hnl)]
        exact if_neg (fun hh => by cases hh.2)
      unfold writeFile
      rcases hplain name with hp | ⟨b', hp⟩
      · simp [hloc, hp]
      · simp [hloc, hp]
    have hf1 : Filled pd fs (fs.set (pd ++ [name]) (Node.file b)) := filled_set pd fs name b
    obtain ⟨fs', hfs'⟩ := ih (fs.set (pd ++ [name]) (Node.file b))
      (by
        intro x nd hx
        rcases hW x nd hx with h | h
        · exact Or.inl h
        · rcases hf1 x with h' | h'
          · right; rw [h']; exact h
          · obtain ⟨b', hb'⟩ := h'.1
            obtain ⟨n, hn⟩ := h'.2
            rcases hplain n with hp | ⟨b'', hp⟩
            · rw [hn, hp] at h; cases h
            · rw [hn, hp] at h
              injection h with h
              exact Or.inl ⟨b'', h.symm⟩)
      (by
        intro x hx
        rcases hf1 x with h | h
        · rw [h]; exact hout x hx
        · exact absurd h.2 hx)
      (by
        intro n
        rcases hf1 (pd ++ [n]) with h | h
        · rw [h]; exact hplain n
        · exact Or.inr h.1)
      (fun n hn => hall n (List.mem_cons_of_mem _ hn))
    exact ⟨fs', by simp only [copyFiles, hrd, hwr]; exact hfs'⟩

theorem entry_on_the_way (fs : FS) (m : Mode) (dest ls pd : Path)
    (hdest : locate fs m dest = .ok pd) (hpd : fs.node pd = some Node.dir)
    (hb : ls <+: pd) (hne : ls ≠ pd) :
    ∃ n, ls ++ [n] <+: pd ∧ fs.node (ls ++ [n]) = some Node.dir := by
  obtain ⟨t, ht⟩ := hb
  cases t with
  | nil => exact absurd (by simpa using ht) hne
  | cons n t =>
    have hpre : ls ++ [n] <+: pd := ⟨t, by rw [← ht]; simp⟩
    refine ⟨n, hpre, ?_⟩
    by_cases he : ls ++ [n] = pd
    · rw [he]; exact hpd
    · exact locate_above_dirs fs _ dest pd hdest _ hpre he

/-- With `src` and `dest` two directories of plain files the run returns
`nil`. -/
theorem run_succeeds {cwd : Path} (srcN destN : PathName) (src dest ps pd : Path)
    (hsn : srcN.full cwd = src) (hdn : destN.full cwd = dest) (fs : FS)
    (hsrc : locate fs Mode.nofollow src = .ok ps) (hps : fs.node ps = some Node.dir)
    (hF : ∀ name, Plain (fs.node (ps ++ [name])))
    (hdest : locate fs Mode.follow dest = .ok pd) (hpd : fs.node pd = some Node.dir)
    (hD : ∀ name, Plain (fs.node (pd ++ [name]))) (hpp : ps ≠ pd) :
    ∃ fs', emptyAndCopyFiles cwd srcN destN fs = (none, fs') := by
  have hsf : locate fs Mode.follow src = .ok ps :=
    locate_nofollow_real fs src ps Node.dir hsrc hps (fun t ht => by cases ht)
  have hstat : stat fs src = .ok Node.dir := stat_of_locate _ _ _ _ hsf hps
  have hrd : readDir fs dest = .ok (fs.children pd) := readDir_of_locate _ _ _ hdest hpd
  have hnotdir : ∀ (d : Path) (n : String), Plain (fs.node (d ++ [n])) →
      fs.node (d ++ [n]) ≠ some Node.dir := by
    intro d n hp hd
    rcases hp with hp | ⟨b, hp⟩
    · rw [hp] at hd; cases hd
    · rw [hp] at hd; cases hd
  have hnc : ¬ IsChild pd ps := by
    rintro ⟨n, hn⟩
    exact hnotdir pd n (hD n) (hn ▸ hps)
  have hnb : ¬ ps <+: pd := by
    intro hb
    obtain ⟨n, _, hn⟩ := entry_on_the_way fs _ dest ps pd hdest hpd hb hpp
    exact hnotdir ps n (hF n) hn
  have hps0 : ps ≠ [] := fun h => hnb (h ▸ List.nil_prefix)
  -- the first loop
  obtain ⟨fs1, hrm⟩ := removeFiles_ok fs dest pd hdest hpd hD (fs.children pd) fs
    (children_nodup fs pd) (shrunk_refl pd fs) (fun name hn => (mem_children fs pd name).1 hn)
  obtain ⟨pd', h0, _, hs, hgone⟩ := after_remove _ _ _ _ hrd hrm
  have hpd' : pd' = pd := by rw [hdest] at h0; injection h0 with h0; exact h0.symm
  subst hpd'
  have hW01 : fs.Within fs1 := within_of_shrunk_plain hs hD
  have hout1 : ∀ x, ¬ IsChild pd' x → fs1.node x = fs.node x :=
    fun x hx => (hs x).elim id (fun h => absurd h.2 hx)
  have hps1 : fs1.node ps = some Node.dir := (hout1 ps hnc).trans hps
  have hrs : readDir fs1 src = .ok (fs1.children ps) :=
    readDir_of_locate _ _ _ (locate_transfer_dir fs fs1 src ps hW01 hps hsf) hps1
  have hsame : ∀ (f : FS), (∀ x, ¬ IsChild pd' x → f.node x = fs.node x) →
      ∀ n, f.node (ps ++ [n]) = fs.node (ps ++ [n]) :=
    fun f hf n => hf _ (fun ⟨m, hm⟩ => hpp (child_parent _ _ _ _ hm))
  -- the second loop
  obtain ⟨fs2, hcp⟩ := copyFiles_ok fs src dest ps pd' hsf hps hdest hpd hpp (fs1.children ps)
    fs1 hW01 hout1 (fun n => Or.inl (hgone n)) (by
      intro n hn
      have h1 := (mem_children fs1 ps n).1 hn
      rw [hsame fs1 hout1 n] at h1
      rcases hF n with hp | hp
      · exact absurd hp h1
      · exact hp)
  obtain ⟨hf, _, _, _, _⟩ := copyFiles_spec fs src dest pd' (fun _ _ => True) hdest
    (fs1.children ps) fs1 fs2 none (within_of_sub (shrunk_sub hs))
    (fun name => Or.inl (hgone name)) (fun _ _ _ _ _ => trivial) hcp
  have hW02 : fs.Within fs2 := within_trans hW01 (within_of_filled_empty hf hgone)
  have hout2 : ∀ x, ¬ IsChild pd' x → fs2.node x = fs.node x :=
    fun x hx => (hf x).elim (fun h => h.trans (hout1 x hx)) (fun h => absurd h.2 hx)
  have hps2 : fs2.node ps = some Node.dir := (hout2 ps hnc).trans hps
  have hpd2 : fs2.node pd' = some Node.dir := (hout2 pd' (not_child_self pd')).trans hpd
  have hplain2 : ∀ a, Plain (fs2.node (ps ++ [a])) := fun a => (hsame fs2 hout2 a) ▸ hF a
  -- the removal of `src`
  have hsrc2 : locate fs2 Mode.nofollow src = .ok ps :=
    locate_transfer fs fs2 Mode.nofollow src ps hW02 (Or.inl rfl) hsrc
  have hra : removeAll fs2 src = (none, fs2.removeTree ps) := by
    rw [removeAll_of_locate _ _ _ hsrc2, if_neg hps0]
  -- the link
  have hroot : ¬ ps <+: [] := fun h => hps0 (by simpa using h)
  have hd3 : locate (fs2.removeTree ps) Mode.follow dest = .ok pd' :=
    walk_avoid fs2 Mode.follow ps pd' hps0 hps2 hplain2 (Or.inl hnb) _ _ _ hroot
      (locate_transfer_dir fs fs2 dest pd' hW02 hpd hdest)
  have hpd3 : (fs2.removeTree ps).node pd' = some Node.dir := by
    rw [node_removeTree_other _ _ _ hnb]; exact hpd2
  have hs3 : locate (fs2.removeTree ps) Mode.nofollow src = .ok ps :=
    walk_avoid fs2 Mode.nofollow ps ps hps0 hps2 hplain2 (Or.inr ⟨rfl, rfl⟩) _ _ _ hroot hsrc2
  have hlink : createSymLink cwd destN srcN (fs2.removeTree ps)
      = (none, (fs2.removeTree ps).set ps (Node.symlink destN)) :=
    createSymLink_of destN srcN ps (fs2.removeTree ps) Node.dir
      (hdn ▸ stat_of_locate _ _ _ _ hd3 hpd3) (hsn ▸ hs3)
      (node_removeTree_below _ _ _ hps0 (List.prefix_refl _))
  refine ⟨(fs2.removeTree ps).set ps (Node.symlink destN), ?_⟩
  unfold emptyAndCopyFiles
  simp only [copyFiles_guard, hsn, hdn]
  simp only [hstat, hrd, hrm, hrs, hcp, hra, hlink]

/-- A run that returns `nil` ends with the link: `src` is a link with the target
`dest` as given, `dest` leads where it led before the run, to a directory if
`src` existed, and for an absolute `dest` the lookup of `src` ends there too or
runs out of links. -/
theorem run_nil_links {cwd : Path} (src dest : PathName) (fs fs' : FS)
    (h : emptyAndCopyFiles cwd src dest fs = (none, fs')) :
    lstat fs' (src.full cwd) = .ok (Node.symlink dest) ∧
    ∃ c nd, locate fs Mode.follow (dest.full cwd) = .ok c ∧ fs.node c = some nd ∧
      locate fs' Mode.follow (dest.full cwd) = .ok c ∧ fs'.node c = some nd ∧
      (∀ n, stat fs (src.full cwd) = .ok n → nd = Node.dir) ∧
      (dest.absolute = true →
        locate fs' Mode.follow (src.full cwd) = .ok c ∨
          locate fs' Mode.follow (src.full cwd) = .error Errno.ELOOP) := by
  rcases emptyAndCopyFiles_cases src dest _ _ rfl rfl _ _ _ h with ⟨hst, hl⟩ | ⟨e, _, _, he, _⟩ |
    ⟨_, ⟨e, _, he, _⟩ | ⟨files, hrd, ⟨e, _, he⟩ | ⟨fs1, hrm, ⟨e, _, he, _⟩ |
      ⟨files2, hrs, ⟨e, _, he⟩ | ⟨fs2, hcp, ⟨e, _, he⟩ | ⟨fs3, hra, hl⟩⟩⟩⟩⟩⟩
  · obtain ⟨hls, c, nd, hc, hcn, hc', hcn', hloc⟩ := createSymLink_links _ _ _ _ hl
    refine ⟨hls, c, nd, hc, hcn, hc', hcn', fun n hn => ?_, hloc⟩
    rw [hst] at hn
    cases hn
  · cases he
  · cases he
  · cases he
  · cases he
  · cases he
  · cases he
  · obtain ⟨hls, c, nd, hc, hcn, hc', hcn', hloc⟩ := createSymLink_links _ _ _ _ hl
    obtain ⟨pd, h0, hpd, _, _, h3⟩ := dest_before_link _ _ _ _ _ _ _ _ _ hrd hrm hcp hra
    obtain ⟨hcp', hpd3⟩ := h3 c hc
    subst hcp'
    have hnd : nd = Node.dir := by
      rw [hcn] at hpd3
      injection hpd3
    subst hnd
    exact ⟨hls, c, Node.dir, h0, hpd, hc', hcn', fun _ _ => rfl, hloc⟩

/-- A run on two directories of plain files.  Let `src` name a directory (not a
link to one) that holds plain files only, and let `dest` be a directory that
holds plain files only.  When the two directories are not one and the same the
run returns `nil`; and whenever it returns `nil`, every name holds in `dest`
exactly what it held in `src` before the call, a file with the same bytes or
nothing, and reading `dest` lists the names that reading `src` listed. -/
theorem run_copies {cwd : Path} (srcN destN : PathName) (src dest ps pd : Path)
    (hsn : srcN.full cwd = src) (hdn : destN.full cwd = dest) (fs : FS)
    (hsrc : locate fs Mode.nofollow src = .ok ps) (hps : fs.node ps = some Node.dir)
    (hF : ∀ name, Plain (fs.node (ps ++ [name])))
    (hdest : locate fs Mode.follow dest = .ok pd) (hpd : fs.node pd = some Node.dir)
    (hD : ∀ name, Plain (fs.node (pd ++ [name]))) :
    (ps ≠ pd → (emptyAndCopyFiles cwd srcN destN fs).1 = none) ∧
    ∀ fs', emptyAndCopyFiles cwd srcN destN fs = (none, fs') →
      (∀ name, fs'.node (pd ++ [name]) = fs.node (ps ++ [name])) ∧
      readDir fs' dest = readDir fs src := by
  constructor
  · intro hpp
    obtain ⟨fs', h⟩ := run_succeeds srcN destN src dest ps pd hsn hdn fs hsrc hps hF hdest hpd hD hpp
    rw [h]
  intro fs' hrun
  have hsf : locate fs Mode.follow src = .ok ps :=
    locate_nofollow_real fs src ps Node.dir hsrc hps (fun t ht => by cases ht)
  have hstat : stat fs src = .ok Node.dir := stat_of_locate _ _ _ _ hsf hps
  have hnotchild : ∀ name, ps ≠ pd ++ [name] := by
    intro name h
    rcases hD name with hp | ⟨b, hp⟩
    · rw [← h, hps] at hp; cases hp
    · rw [← h, hps] at hp; cases hp
  rcases emptyAndCopyFiles_cases _ _ _ _ hsn hdn _ _ _ hrun with ⟨hne, _⟩ | ⟨e, _, _, he, _⟩ |
    ⟨_, ⟨e, _, he, _⟩ | ⟨files, hrd, ⟨e, _, he⟩ | ⟨fs1, hrm, ⟨e, _, he, _⟩ |
      ⟨files2, hrs, ⟨e, _, he⟩ | ⟨fs2, hcp, ⟨e, _, he⟩ | ⟨fs3, hra, hl⟩⟩⟩⟩⟩⟩
  · rw [hstat] at hne; cases hne
  · cases he
  · cases he
  · cases he
  · cases he
  · cases he
  · cases he
  -- the run went through both loops, the removal of `src` and the final link
  obtain ⟨pd', h0, _, hs, hgone⟩ := after_remove _ _ _ _ hrd hrm
  have hpd' : pd' = pd := by
    rw [hdest] at h0
    injection h0 with h0
    exact h0.symm
  subst hpd'
  obtain ⟨q, hq, _, hpd2, _, hd3⟩ := dest_before_link _ _ _ _ _ _ _ _ _ hrd hrm hcp hra
  have hq' : q = pd' := by
    rw [hdest] at hq
    injection hq with hq
    exact hq.symm
  subst hq'
  obtain ⟨hls, c, nd, hc3, hcn3, hc', hcn', _⟩ := createSymLink_links _ _ _ _ hl
  rw [hdn] at hc3 hc'
  obtain ⟨hcpd, hpd3⟩ := hd3 c hc3
  subst hcpd
  have hnd : nd = Node.dir := by
    rw [hcn3] at hpd3
    injection hpd3
  subst hnd
  -- the state after the first loop
  have hW01 : fs.Within fs1 := within_of_shrunk_plain hs hD
  have hW10 : fs1.Within fs := within_of_sub (shrunk_sub hs)
  have hsrc1 : locate fs1 Mode.nofollow src = .ok ps :=
    locate_transfer fs fs1 Mode.nofollow src ps hW01 (Or.inl rfl) hsrc
  obtain ⟨c2, hc2, hc2d, hfiles2⟩ := readDir_ok _ _ _ hrs
  have hc2ps : c2 = ps := by
    have := locate_transfer_dir fs1 fs src c2 hW10 hc2d hc2
    rw [hsf] at this
    injection this with this
    exact this.symm
  subst hc2ps
  by_cases hpp : c2 = c
  · -- `src` and `dest` name one directory: the run cannot have returned `nil`
    exfalso
    subst hpp
    have hnil : files2 = [] := by
      rw [hfiles2]
      exact (children_eq_nil fs1 c2).2 hgone
    subst hnil
    simp only [copyFiles] at hcp
    injection hcp with _ hcp
    subst hcp
    rw [removeAll_of_locate _ _ _ hsrc1] at hra
    split at hra
    · cases hra
    · rename_i hne
      injection hra with _ hra
      rw [← hra, node_removeTree_below _ _ _ hne (List.prefix_refl _)] at hpd3
      cases hpd3
  · -- `src` and `dest` name two directories
    have hsame1 : ∀ name, fs1.node (c2 ++ [name]) = fs.node (c2 ++ [name]) := by
      intro name
      rcases hs (c2 ++ [name]) with h | h
      · exact h
      · obtain ⟨n', hn'⟩ := h.2
        exact absurd (child_parent _ _ _ _ hn') hpp
    obtain ⟨hf, hframe, _, _, hgood⟩ := copyFiles_spec fs src dest c
      (fun name b => fs.node (c2 ++ [name]) = some (Node.file b)) hdest files2 fs1 fs2 none
      hW10 (fun name => Or.inl (hgone name))
      (by
        intro fsi hfi name b hr
        have hWi : fsi.Within fs := within_filled hW10 hfi
        have hsamei : fsi.node (c2 ++ [name]) = fs.node (c2 ++ [name]) := by
          rcases hfi (c2 ++ [name]) with h | h
          · rw [h]; exact hsame1 name
          · obtain ⟨n', hn'⟩ := h.2
            exact absurd (child_parent _ _ _ _ hn') hpp
        have := read_at fs fsi src c2 name b hWi hsf (by
          intro t ht
          rw [hsamei] at ht
          rcases hF name with hp | ⟨b', hp⟩
          · rw [hp] at ht; cases ht
          · rw [hp] at ht; cases ht) hr
        rw [← hsamei]; exact this)
      hcp
    have hnode2 : ∀ name, fs2.node (c ++ [name]) = fs.node (c2 ++ [name]) := by
      intro name
      by_cases hmem : name ∈ files2
      · obtain ⟨b, hb, hb2⟩ := hgood rfl name hmem
        rw [hb, hb2]
      · have h1 : fs1.node (c2 ++ [name]) = none := by
          by_contra hne
          exact hmem (hfiles2 ▸ (mem_children fs1 c2 name).2 hne)
        rw [← hsame1 name, h1]
        rcases hframe (c ++ [name]) with h | ⟨n', hn', h⟩
        · rw [h]; exact hgone name
        · exact absurd (child_inj _ _ _ h ▸ hn') hmem
    have hW12 : fs1.Within fs2 := within_of_filled_empty hf hgone
    have hsrc2 : locate fs2 Mode.nofollow src = .ok c2 :=
      locate_transfer fs1 fs2 Mode.nofollow src c2 hW12 (Or.inl rfl) hsrc1
    rw [removeAll_of_locate _ _ _ hsrc2] at hra
    split at hra
    · cases hra
    · rename_i hne
      injection hra with _ hra
      subst hra
      have hnb : ¬ c2 <+: c := by
        intro hb
        have hc0 : c ≠ [] := by
          intro h0
          rw [h0] at hb
          exact hpp (by rw [h0]; simpa using hb)
        rw [node_removeTree_below _ _ _ hc0 hb] at hpd3
        cases hpd3
      have hnode3 : ∀ name, (fs2.removeTree c2).node (c ++ [name]) = fs.node (c2 ++ [name]) := by
        intro name
        rw [node_removeTree_other, hnode2]
        intro hb
        rcases below_child _ _ _ hb with hb | hb
        · exact hnb hb
        · exact hnotchild name hb
      obtain ⟨_, L, _, hL, hLn, hfs'⟩ := createSymLink_ok _ _ _ _ hl
      rw [hsn] at hL
      have hLps : L = c2 := by
        have hW3 : (fs2.removeTree c2).Within fs :=
          within_trans (within_of_sub (removeTree_sub fs2 c2)) (within_filled hW10 hf)
        have := locate_transfer _ fs Mode.nofollow src L hW3 (Or.inl rfl) hL
        rw [hsrc] at this
        injection this with this
        exact this.symm
      subst hLps
      have hnode' : ∀ name, fs'.node (c ++ [name]) = fs.node (L ++ [name]) := by
        intro name
        rw [hfs', node_set_other _ _ _ _ (fun h => hnotchild name h.symm)]
        exact hnode3 name
      refine ⟨hnode', ?_⟩
      rw [readDir_of_locate _ _ _ hc' hcn', readDir_of_locate _ _ _ hsf hps]
      congr 1
      apply children_congr
      intro name
      rw [hnode' name]

/-! ## Path resolver and selector -/

/-- Claim C9: `binaryFilePath` returns the joined path with the suffix `.exe`
appended if and only if the OS identifier is the Windows one; for every other
OS identifier the result is exactly the joined path. -/
theorem binaryFilePath_suffix_iff_windows (join : String → String → String)
    (goos binaryDir binaryFilePrefix : String) :
    (binaryFilePath join goos binaryDir binaryFilePrefix
        = join binaryDir binaryFilePrefix ++ ".exe" ↔ goos = daprWindowsOS) ∧
    (goos ≠ daprWindowsOS →
      binaryFilePath join goos binaryDir binaryFilePrefix = join binaryDir binaryFilePrefix) := by
  have hne : join binaryDir binaryFilePrefix ≠ join binaryDir binaryFilePrefix ++ ".exe" := by
    intro h
    have hl := congrArg String.length h
    rw [String.length_append] at hl
    have h4 : (".exe" : String).length = 4 := by decide
    omega
  unfold binaryFilePath
  by_cases hg : goos = daprWindowsOS
  · simp [hg]
  · simp [hg, hne]

/-- Claim C6: `GetResourcesDir` returns the resources path whenever that path
exists, whatever the state of the components directory, returns the components
path when the resources path does not exist, and leaves the file system as it
was.  This holds for an absolute and for a relative home directory, from every
working directory. -/
theorem GetResourcesDir_selects (cwd : Path) (homeDir : PathName) (fs : FS) :
    (∀ n, stat fs ((DefaultResourcesDirPath homeDir).full cwd) = .ok n →
      GetResourcesDir cwd homeDir fs = (DefaultResourcesDirPath homeDir, fs)) ∧
    (stat fs ((DefaultResourcesDirPath homeDir).full cwd) = .error Errno.ENOENT →
      GetResourcesDir cwd homeDir fs = (DefaultComponentsDirPath homeDir, fs)) ∧
    (GetResourcesDir cwd homeDir fs).2 = fs := by
  unfold GetResourcesDir
  refine ⟨?_, ?_, ?_⟩
  · intro n h
    simp [h]
  · intro h
    simp [h, isNotExist]
  · cases h : stat fs ((DefaultResourcesDirPath homeDir).full cwd) with
    | error e =>
      by_cases he : isNotExist e = true
      · simp [h, he]
      · simp [h, he]
    | ok n => simp [h]

/-- The resources path is selected when it exists, with and without a
components directory next to it; the components path is selected when the
resources path is missing. -/
theorem GetResourcesDir_selects_witness :
    GetResourcesDir [] (PathName.abs ["home"])
        ⟨[(["home"], Node.dir), (["home", ".dapr"], Node.dir),
          (["home", ".dapr", "resources"], Node.dir)]⟩
      = (PathName.abs ["home", ".dapr", "resources"],
        ⟨[(["home"], Node.dir), (["home", ".dapr"], Node.dir),
          (["home", ".dapr", "resources"], Node.dir)]⟩) ∧
    GetResourcesDir [] (PathName.abs ["home"])
        ⟨[(["home"], Node.dir), (["home", ".dapr"], Node.dir),
          (["home", ".dapr", "components"], Node.dir)]⟩
      = (PathName.abs ["home", ".dapr", "components"],
        ⟨[(["home"], Node.dir), (["home", ".dapr"], Node.dir),
          (["home", ".dapr", "components"], Node.dir)]⟩) :=
  ⟨(GetResourcesDir_selects [] (PathName.abs ["home"]) _).1 Node.dir rfl,
   (GetResourcesDir_selects [] (PathName.abs ["home"]) _).2.1 rfl⟩

/-- Claim C7, the call on `fsDaprFile`, where `.dapr` is a plain file: the stat
of the resources path fails with `ENOTDIR`, an error other than "not found", so
there is no resources directory; `GetResourcesDir` returns the resources path
all the same, not the components path. -/
theorem GetResourcesDir_stat_fails_not_a_directory :
    stat fsDaprFile ((DefaultResourcesDirPath (PathName.abs ["home"])).full [])
      = .error Errno.ENOTDIR ∧
    isNotExist Errno.ENOTDIR = false ∧
    GetResourcesDir [] (PathName.abs ["home"]) fsDaprFile
      = (DefaultResourcesDirPath (PathName.abs ["home"]), fsDaprFile) ∧
    DefaultResourcesDirPath (PathName.abs ["home"])
      = PathName.abs ["home", ".dapr", "resources"] ∧
    DefaultComponentsDirPath (PathName.abs ["home"])
      = PathName.abs ["home", ".dapr", "components"] ∧
    (GetResourcesDir [] (PathName.abs ["home"]) fsDaprFile).1
      ≠ DefaultComponentsDirPath (PathName.abs ["home"]) :=
  ⟨rfl, rfl, rfl, rfl, rfl, by decide⟩

/-! ## The symlink shim -/

/-- Claim C5: when `dirName` does not exist, `createSymLink` returns the
"directory does not exist" error and leaves the file system unchanged, so no
link is created. -/
theorem createSymLink_target_missing (cwd : Path) (dirName symLinkName : PathName) (fs : FS)
    (h : stat fs (dirName.full cwd) = .error Errno.ENOENT) :
    createSymLink cwd dirName symLinkName fs = (some (Err.dirNotExist dirName), fs) := by
  unfold createSymLink
  simp [h, isNotExist]

/-- The error and the untouched file system for a missing `resources`. -/
theorem createSymLink_target_missing_witness :
    createSymLink [] (PathName.abs ["resources"]) (PathName.abs ["components"])
        ⟨[(["other"], Node.dir)]⟩
      = (some (Err.dirNotExist (PathName.abs ["resources"])), ⟨[(["other"], Node.dir)]⟩) ∧
    lstat ⟨[(["other"], Node.dir)]⟩ ["components"] = .error Errno.ENOENT :=
  ⟨createSymLink_target_missing [] (PathName.abs ["resources"]) (PathName.abs ["components"])
    _ rfl, rfl⟩
/-! ## The migration -/

/-- Claim C2, amended: whenever `emptyAndCopyFiles` returns `nil`, `src` is a
symbolic link whose stored target is the path `dest` as given, and `dest`
leads to the location `c` and the node there that it led to before the call, a
directory whenever `src` existed before the call.  When `dest` is an absolute
path, the lookup of `src` that `os.Stat` performs ends at that same location
`c`, or fails with `ELOOP` because the one link more exceeds the kernel's
bound.  For a relative `dest` only the stored target is stated. -/
theorem emptyAndCopyFiles_src_is_link (cwd : Path) (src dest : PathName) (fs fs' : FS)
    (h : emptyAndCopyFiles cwd src dest fs = (none, fs')) :
    lstat fs' (src.full cwd) = .ok (Node.symlink dest) ∧
    ∃ c nd, locate fs Mode.follow (dest.full cwd) = .ok c ∧ fs.node c = some nd ∧
      locate fs' Mode.follow (dest.full cwd) = .ok c ∧ fs'.node c = some nd ∧
      (∀ n, stat fs (src.full cwd) = .ok n → nd = Node.dir) ∧
      (dest.absolute = true →
        locate fs' Mode.follow (src.full cwd) = .ok c ∨
          locate fs' Mode.follow (src.full cwd) = .error Errno.ELOOP) :=
  run_nil_links src dest fs fs' h

/-- The run on `fsLegacy` returns `nil`; afterwards the legacy path is a link
with the target `resources` and resolves to the resources directory. -/
theorem emptyAndCopyFiles_src_is_link_witness :
    emptyAndCopyFiles [] (PathName.abs ["components"]) (PathName.abs ["resources"]) fsLegacy
      = (none, fsMigrated) ∧
    lstat fsMigrated ["components"] = .ok (Node.symlink (PathName.abs ["resources"])) ∧
    locate fsMigrated Mode.follow ["components"] = .ok ["resources"] ∧
    stat fsMigrated ["components"] = .ok Node.dir :=
  ⟨rfl,
    (emptyAndCopyFiles_src_is_link [] (PathName.abs ["components"]) (PathName.abs ["resources"])
      fsLegacy fsMigrated rfl).1,
    rfl, rfl⟩

/-- Claim C2 fails as stated: three runs return `nil` and leave a link `src`
that does not resolve to a directory `dest`.  With `dest` a plain file and `src`
absent the link leads to a file.  With `dest` reached through forty links, `dest`
is a directory for `os.Stat` and `src`, one link more, fails with `ELOOP`.  With
the relative paths `.dapr/components` and `.dapr/resources`, which the package
builds when the home directory is not known, the link is looked up from the
directory `.dapr` that holds it and names nothing. -/
theorem emptyAndCopyFiles_src_is_link_counterexample :
    ((emptyAndCopyFiles [] (PathName.abs ["components"]) (PathName.abs ["resources"])
        ⟨[(["resources"], Node.file [1])]⟩).1 = none ∧
      stat (emptyAndCopyFiles [] (PathName.abs ["components"]) (PathName.abs ["resources"])
        ⟨[(["resources"], Node.file [1])]⟩).2 ["components"] = .ok (Node.file [1])) ∧
    (stat fsChain [chainName 39] = .ok Node.dir ∧
      (emptyAndCopyFiles [] (PathName.abs ["components"]) (PathName.abs [chainName 39])
        fsChain).1 = none ∧
      lstat (emptyAndCopyFiles [] (PathName.abs ["components"]) (PathName.abs [chainName 39])
        fsChain).2 ["components"] = .ok (Node.symlink (PathName.abs [chainName 39])) ∧
      stat (emptyAndCopyFiles [] (PathName.abs ["components"]) (PathName.abs [chainName 39])
        fsChain).2 ["components"] = .error Errno.ELOOP) ∧
    (DefaultComponentsDirPath (PathName.rel []) = PathName.rel [".dapr", "components"] ∧
      DefaultResourcesDirPath (PathName.rel []) = PathName.rel [".dapr", "resources"] ∧
      stat fsRelative ((PathName.rel [".dapr", "resources"]).full ["work"]) = .ok Node.dir ∧
      (emptyAndCopyFiles ["work"] (PathName.rel [".dapr", "components"])
        (PathName.rel [".dapr", "resources"]) fsRelative).1 = none ∧
      lstat (emptyAndCopyFiles ["work"] (PathName.rel [".dapr", "components"])
        (PathName.rel [".dapr", "resources"]) fsRelative).2 ["work", ".dapr", "components"]
        = .ok (Node.symlink (PathName.rel [".dapr", "resources"])) ∧
      stat (emptyAndCopyFiles ["work"] (PathName.rel [".dapr", "components"])
        (PathName.rel [".dapr", "resources"]) fsRelative).2 ["work", ".dapr", "components"]
        = .error Errno.ENOENT) :=
  ⟨⟨rfl, rfl⟩, ⟨rfl, rfl, rfl, rfl⟩, ⟨rfl, rfl, rfl, rfl, rfl, rfl⟩⟩

/-- Claim C4, amended: when `src` names nothing (not even a dangling link) in
an existing directory, is not an entry of `dest`, and `dest` exists as a
directory, `emptyAndCopyFiles` returns `nil`, `src` is afterwards a link to
`dest`, and the entries of `dest`, names and contents, are what they were. -/
theorem emptyAndCopyFiles_absent_src (cwd : Path) (src dest : PathName) (L pd : Path) (fs : FS)
    (hsrc : locate fs Mode.nofollow (src.full cwd) = .ok L) (hL : fs.node L = none)
    (hdest : locate fs Mode.follow (dest.full cwd) = .ok pd) (hpd : fs.node pd = some Node.dir)
    (hout : ¬ IsChild pd L) :
    ∃ fs', emptyAndCopyFiles cwd src dest fs = (none, fs') ∧
      lstat fs' (src.full cwd) = .ok (Node.symlink dest) ∧
      stat fs' (dest.full cwd) = .ok Node.dir ∧
      (∀ name, fs'.node (pd ++ [name]) = fs.node (pd ++ [name])) ∧
      readDir fs' (dest.full cwd) = readDir fs (dest.full cwd) := by
  have hstat : stat fs (src.full cwd) = .error Errno.ENOENT :=
    stat_of_locate_error _ _ _ (locate_nofollow_none _ _ _ hsrc hL)
  have hlink : createSymLink cwd dest src fs = (none, fs.set L (Node.symlink dest)) :=
    createSymLink_of dest src L fs Node.dir (stat_of_locate _ _ _ _ hdest hpd) hsrc hL
  have hrun : emptyAndCopyFiles cwd src dest fs = (none, fs.set L (Node.symlink dest)) := by
    unfold emptyAndCopyFiles
    simp [hstat, isNotExist, hlink]
  obtain ⟨hls, c, nd, hc, hcn, hc', hcn', _⟩ := createSymLink_links _ _ _ _ hlink
  have hcpd : c = pd := by
    rw [hdest] at hc
    injection hc with hc
    exact hc.symm
  subst hcpd
  have hnd : nd = Node.dir := by
    rw [hpd] at hcn
    injection hcn with hcn
    exact hcn.symm
  subst hnd
  refine ⟨_, hrun, hls, stat_of_locate _ _ _ _ hc' hcn', fun name => ?_, ?_⟩
  · exact node_set_other _ _ _ _ (fun h => hout ⟨name, h.symm⟩)
  · rw [readDir_of_locate _ _ _ hc' hcn', readDir_of_locate _ _ _ hdest hpd,
      children_set_other _ _ _ _ hout]

/-- A fresh installation: no `components` next to a `resources` directory
holding one file.  The run returns `nil`, links `components` to `resources`
and leaves the file alone. -/
theorem emptyAndCopyFiles_absent_src_witness :
    ∃ fs', emptyAndCopyFiles [] (PathName.abs ["components"]) (PathName.abs ["resources"])
        ⟨[(["resources"], Node.dir), (["resources", "a.yaml"], Node.file [97])]⟩ = (none, fs') ∧
      lstat fs' ["components"] = .ok (Node.symlink (PathName.abs ["resources"])) ∧
      stat fs' ["resources"] = .ok Node.dir ∧
      (∀ name, fs'.node (["resources"] ++ [name])
        = (FS.mk [(["resources"], Node.dir),
            (["resources", "a.yaml"], Node.file [97])]).node (["resources"] ++ [name])) ∧
      readDir fs' ["resources"]
        = readDir ⟨[(["resources"], Node.dir), (["resources", "a.yaml"], Node.file [97])]⟩
            ["resources"] :=
  emptyAndCopyFiles_absent_src [] (PathName.abs ["components"]) (PathName.abs ["resources"])
    ["components"] ["resources"]
    ⟨[(["resources"], Node.dir), (["resources", "a.yaml"], Node.file [97])]⟩ rfl rfl rfl rfl
    (by rintro ⟨name, h⟩; simp at h)

/-- Claim C4 fails as stated.  In each of the three states `src` does not exist
for `os.Stat` and `dest` is a directory; with the parent of `src` missing the
run returns an error, with `src` a dangling link it returns an error, and with
`src` located in `dest` it adds an entry to `dest`. -/
theorem emptyAndCopyFiles_absent_src_counterexample :
    (stat ⟨[(["resources"], Node.dir)]⟩ ["old", "components"] = .error Errno.ENOENT ∧
      stat ⟨[(["resources"], Node.dir)]⟩ ["resources"] = .ok Node.dir ∧
      emptyAndCopyFiles [] (PathName.abs ["old", "components"]) (PathName.abs ["resources"])
          ⟨[(["resources"], Node.dir)]⟩
        = (some (Err.creatingSymlink (PathName.abs ["resources"])
              (PathName.abs ["old", "components"]) Errno.ENOENT),
            ⟨[(["resources"], Node.dir)]⟩)) ∧
    (stat ⟨[(["resources"], Node.dir),
          (["components"], Node.symlink (PathName.abs ["gone"]))]⟩
        ["components"] = .error Errno.ENOENT ∧
      stat ⟨[(["resources"], Node.dir),
          (["components"], Node.symlink (PathName.abs ["gone"]))]⟩
        ["resources"] = .ok Node.dir ∧
      emptyAndCopyFiles [] (PathName.abs ["components"]) (PathName.abs ["resources"])
          ⟨[(["resources"], Node.dir), (["components"], Node.symlink (PathName.abs ["gone"]))]⟩
        = (some (Err.creatingSymlink (PathName.abs ["resources"]) (PathName.abs ["components"])
              Errno.EEXIST),
            ⟨[(["resources"], Node.dir),
              (["components"], Node.symlink (PathName.abs ["gone"]))]⟩)) ∧
    (stat ⟨[(["resources"], Node.dir)]⟩ ["resources", "components"] = .error Errno.ENOENT ∧
      readDir ⟨[(["resources"], Node.dir)]⟩ ["resources"] = .ok [] ∧
      (emptyAndCopyFiles [] (PathName.abs ["resources", "components"])
          (PathName.abs ["resources"]) ⟨[(["resources"], Node.dir)]⟩).1 = none ∧
      readDir (emptyAndCopyFiles [] (PathName.abs ["resources", "components"])
          (PathName.abs ["resources"]) ⟨[(["resources"], Node.dir)]⟩).2 ["resources"]
        = .ok ["components"]) :=
  ⟨⟨rfl, rfl, rfl⟩, ⟨rfl, rfl, rfl⟩, ⟨rfl, rfl, rfl, rfl⟩⟩

/-- Claim C3, the run on an installation that is already migrated: the run
returns `nil` and `components` is a link to `resources` again, but the two
files `resources` held are gone. -/
theorem emptyAndCopyFiles_rerun_empties_dest :
    lstat fsMigrated ["components"] = .ok (Node.symlink (PathName.abs ["resources"])) ∧
    readDir fsMigrated ["resources"] = .ok ["a.yaml", "b.yaml"] ∧
    emptyAndCopyFiles [] (PathName.abs ["components"]) (PathName.abs ["resources"]) fsMigrated
      = (none, ⟨[(["components"], Node.symlink (PathName.abs ["resources"])),
          (["resources"], Node.dir)]⟩) ∧
    readDir (emptyAndCopyFiles [] (PathName.abs ["components"]) (PathName.abs ["resources"])
        fsMigrated).2 ["resources"]
      = .ok [] :=
  ⟨rfl, rfl, rfl, rfl⟩

/-- Claim C1, the run with `src` a link to the directory `dest`: for `os.Stat`
`src` is an existing directory, and read through `src` it holds the plain files
`a.yaml` and `b.yaml`; `dest` holds plain files only.  The run returns `nil`,
and afterwards `dest` has no entry: neither file is in it. -/
theorem emptyAndCopyFiles_linked_src_loses_files :
    stat fsMigrated ["components"] = .ok Node.dir ∧
    readDir fsMigrated ["components"] = .ok ["a.yaml", "b.yaml"] ∧
    readFile fsMigrated ["components", "a.yaml"] = .ok [97] ∧
    readFile fsMigrated ["components", "b.yaml"] = .ok [98] ∧
    stat fsMigrated ["resources"] = .ok Node.dir ∧
    (emptyAndCopyFiles [] (PathName.abs ["components"]) (PathName.abs ["resources"])
      fsMigrated).1 = none ∧
    readDir (emptyAndCopyFiles [] (PathName.abs ["components"]) (PathName.abs ["resources"])
      fsMigrated).2 ["resources"] = .ok [] ∧
    readFile (emptyAndCopyFiles [] (PathName.abs ["components"]) (PathName.abs ["resources"])
      fsMigrated).2 ["resources", "a.yaml"] = .error Errno.ENOENT ∧
    readFile (emptyAndCopyFiles [] (PathName.abs ["components"]) (PathName.abs ["resources"])
      fsMigrated).2 ["resources", "b.yaml"] = .error Errno.ENOENT :=
  ⟨rfl, rfl, rfl, rfl, rfl, rfl, rfl, rfl, rfl⟩
/-- Claim C10, amended: let `src` name a directory (not a link) and `dest` a
directory, neither at or below the other.  If `emptyAndCopyFiles` returns an
error raised before the removal of `src`, the directory `src` named before the
call is still a directory and everything below it, names and bytes, is as it
was, and the directory `dest` named is still a directory; and when no entry of
`dest` is a symbolic link, the path `src` still names its directory, with the
same entries. -/
theorem emptyAndCopyFiles_abort_keeps_src (cwd : Path) (src dest : PathName) (ps pd : Path)
    (fs fs' : FS) (e : Err)
    (hsrc : locate fs Mode.nofollow (src.full cwd) = .ok ps) (hps : fs.node ps = some Node.dir)
    (hdest : locate fs Mode.follow (dest.full cwd) = .ok pd) (hpd : fs.node pd = some Node.dir)
    (h1 : ¬ ps <+: pd) (h2 : ¬ pd <+: ps)
    (hrun : emptyAndCopyFiles cwd src dest fs = (some e, fs')) (he : e.beforeRemoval = true) :
    fs'.node ps = some Node.dir ∧ (∀ x, ps <+: x → fs'.node x = fs.node x) ∧
    fs'.node pd = some Node.dir ∧
    ((∀ name t, fs.node (pd ++ [name]) ≠ some (Node.symlink t)) →
      locate fs' Mode.nofollow (src.full cwd) = .ok ps ∧
        lstat fs' (src.full cwd) = .ok Node.dir ∧
        readDir fs' (src.full cwd) = readDir fs (src.full cwd)) := by
  have hfr := run_frame_early src dest _ _ pd rfl rfl fs fs' e hdest hrun he
  have hpd' : fs'.node pd = some Node.dir := by
    rcases hfr pd with h | ⟨h, _⟩
    · rw [h]; exact hpd
    · exact absurd h (not_child_self pd)
  have hkeep : ∀ x, ps <+: x → fs'.node x = fs.node x := by
    intro x hx
    rcases hfr x with h | ⟨⟨name, h⟩, _⟩
    · exact h
    · exfalso
      rw [h] at hx
      rcases below_child _ _ _ hx with hb | hb
      · exact h1 hb
      · exact h2 (hb ▸ List.prefix_append pd [name])
  have hps' : fs'.node ps = some Node.dir := (hkeep ps (List.prefix_refl _)).trans hps
  refine ⟨hps', hkeep, hpd', fun hnl => ?_⟩
  have hnc : ¬ IsChild pd ps := by
    rintro ⟨name, h⟩
    exact h2 (h ▸ List.prefix_append pd [name])
  have hcn : fs.node ps ≠ none := by
    rw [hps]
    exact fun hh => by cases hh
  have hloc : locate fs' Mode.nofollow (src.full cwd) = .ok ps :=
    run_early_lookup src dest _ _ pd rfl rfl fs fs' e hdest hrun he hnl Mode.nofollow _ ps
      hnc hcn hsrc
  have hsf : locate fs Mode.follow (src.full cwd) = .ok ps :=
    locate_nofollow_real fs _ ps Node.dir hsrc hps (fun t ht => by cases ht)
  have hsf' : locate fs' Mode.follow (src.full cwd) = .ok ps :=
    locate_nofollow_real fs' _ ps Node.dir hloc hps' (fun t ht => by cases ht)
  refine ⟨hloc, lstat_of_locate _ _ _ _ hloc hps', ?_⟩
  rw [readDir_of_locate _ _ _ hsf' hps', readDir_of_locate _ _ _ hsf hps]
  congr 1
  apply children_congr
  intro name
  rw [hkeep (ps ++ [name]) (List.prefix_append ps [name])]

/-- The run on `fsBlocked` removes the stale file, fails on the directory `sub`
with "error removing file", and leaves `components` and its file as they
were, under the path `components`. -/
theorem emptyAndCopyFiles_abort_keeps_src_witness :
    (emptyAndCopyFiles [] (PathName.abs ["components"]) (PathName.abs ["resources"])
      fsBlocked).1 = some (Err.removingFile "sub" Errno.ENOTEMPTY) ∧
    (emptyAndCopyFiles [] (PathName.abs ["components"]) (PathName.abs ["resources"])
      fsBlocked).2.node ["resources", "old.yaml"] = none ∧
    (emptyAndCopyFiles [] (PathName.abs ["components"]) (PathName.abs ["resources"])
      fsBlocked).2.node ["components"] = some Node.dir ∧
    (emptyAndCopyFiles [] (PathName.abs ["components"]) (PathName.abs ["resources"])
      fsBlocked).2.node ["components", "a.yaml"] = fsBlocked.node ["components", "a.yaml"] ∧
    lstat (emptyAndCopyFiles [] (PathName.abs ["components"]) (PathName.abs ["resources"])
      fsBlocked).2 ["components"] = .ok Node.dir :=
  have hnl : ∀ name t, fsBlocked.node (["resources"] ++ [name]) ≠ some (Node.symlink t) := by
    intro name t
    by_cases h1 : name = "old.yaml"
    · subst h1; exact fun hh => by cases hh
    · by_cases h2 : name = "sub"
      · subst h2; exact fun hh => by cases hh
      · have h1' : ¬ "old.yaml" = name := fun h => h1 h.symm
        have h2' : ¬ "sub" = name := fun h => h2 h.symm
        simp [FS.node, fsBlocked, List.find?_cons, h1', h2']
  have h := emptyAndCopyFiles_abort_keeps_src [] (PathName.abs ["components"])
    (PathName.abs ["resources"]) ["components"] ["resources"] fsBlocked
    (emptyAndCopyFiles [] (PathName.abs ["components"]) (PathName.abs ["resources"])
      fsBlocked).2
    (Err.removingFile "sub" Errno.ENOTEMPTY) rfl rfl rfl rfl (by decide) (by decide) rfl rfl
  ⟨rfl, rfl, h.1, h.2.1 ["components", "a.yaml"] (by decide), (h.2.2.2 hnl).2.1⟩

/-- Claim C10 fails as stated.  In `fsDetour` the path `s/c` names a directory,
not a link, that holds `a.yaml`; `r` is a directory, located elsewhere.  The
path `s/c` leads through the link `r/l`, an entry of `r`.  The run unlinks
`r/l` in its first loop and stops with "error reading files from s/c", an
error raised before the removal of `src`; afterwards `s/c` names nothing. -/
theorem emptyAndCopyFiles_abort_keeps_src_counterexample :
    lstat fsDetour ["s", "c"] = .ok Node.dir ∧
    locate fsDetour Mode.nofollow ["s", "c"] = .ok ["data", "c"] ∧
    readDir fsDetour ["s", "c"] = .ok ["a.yaml"] ∧
    lstat fsDetour ["r"] = .ok Node.dir ∧
    emptyAndCopyFiles [] (PathName.abs ["s", "c"]) (PathName.abs ["r"]) fsDetour
      = (some (Err.readingFiles (PathName.abs ["s", "c"]) Errno.ENOENT),
          fsDetour.erase ["r", "l"]) ∧
    (Err.readingFiles (PathName.abs ["s", "c"]) Errno.ENOENT).beforeRemoval = true ∧
    stat (fsDetour.erase ["r", "l"]) ["s", "c"] = .error Errno.ENOENT ∧
    readDir (fsDetour.erase ["r", "l"]) ["s", "c"] = .error Errno.ENOENT :=
  ⟨rfl, rfl, rfl, rfl, rfl, rfl, rfl, rfl⟩

/-- Claim C8, amended: let `dest` name a directory and let `src` not be that
directory itself (a link to it is allowed).  Whatever `emptyAndCopyFiles` returns, the directory `dest`
named before the call is a directory afterwards, also when it is located
inside `src`.  The path `dest` still names it when the run returns `nil`, and
also when the run returns an error raised before the removal of `src` and no
entry of that directory is a symbolic link.  A directory that is gone
afterwards was an empty directory among the entries of `dest` or was at or
below the location `src` names; and when the directory `src` named is gone,
every plain file it held is in `dest` with the same bytes. -/
theorem emptyAndCopyFiles_keeps_dest (cwd : Path) (src dest : PathName) (pd : Path)
    (fs fs' : FS) (err : Option Err)
    (hdest : locate fs Mode.follow (dest.full cwd) = .ok pd) (hpd : fs.node pd = some Node.dir)
    (hsep : ∀ ls, locate fs Mode.nofollow (src.full cwd) = .ok ls → ls ≠ pd)
    (hrun : emptyAndCopyFiles cwd src dest fs = (err, fs')) :
    fs'.node pd = some Node.dir ∧
    (err = none →
      locate fs' Mode.follow (dest.full cwd) = .ok pd ∧
        stat fs' (dest.full cwd) = .ok Node.dir) ∧
    ((∀ name t, fs.node (pd ++ [name]) ≠ some (Node.symlink t)) →
      ∀ e, err = some e → e.beforeRemoval = true →
        locate fs' Mode.follow (dest.full cwd) = .ok pd ∧
          stat fs' (dest.full cwd) = .ok Node.dir) ∧
    (∀ x, fs.node x = some Node.dir → fs'.node x ≠ some Node.dir →
      Touched fs (src.full cwd) pd x) ∧
    (∀ ls, locate fs Mode.nofollow (src.full cwd) = .ok ls → fs.node ls = some Node.dir →
      fs'.node ls ≠ some Node.dir →
      ∀ name b, fs.node (ls ++ [name]) = some (Node.file b) →
        fs'.node (pd ++ [name]) = some (Node.file b)) := by
  have hfr := run_frame src dest _ _ pd rfl rfl fs fs' err hdest hrun
  have hpd' : fs'.node pd = some Node.dir := by
    rcases hfr pd with h | ⟨h, _⟩ | ⟨ls, hls, hb⟩
    · rw [h]; exact hpd
    · exact absurd h (not_child_self pd)
    · rcases run_nested_early src dest _ _ ls pd rfl rfl fs fs' err hls hdest hpd hb
        (hsep ls hls) hrun pd with h | h
      · rw [h]; exact hpd
      · exact absurd h (not_child_self pd)
  refine ⟨hpd', fun hnil => ?_, fun hnl e hee hbefore => ?_, fun x hx hx' => ?_,
    fun ls hls hld hrem => ?_⟩
  · subst hnil
    obtain ⟨_, c, nd, hc, _, hc', _, _, _⟩ :=
      run_nil_links src dest fs fs' hrun
    have hcpd : c = pd := by
      rw [hdest] at hc
      injection hc with hc
      exact hc.symm
    subst hcpd
    exact ⟨hc', stat_of_locate _ _ _ _ hc' hpd'⟩
  · subst hee
    have hloc : locate fs' Mode.follow (dest.full cwd) = .ok pd :=
      run_early_lookup src dest _ _ pd rfl rfl fs fs' e hdest hrun hbefore hnl Mode.follow _ pd
        (not_child_self pd) (by rw [hpd]; exact fun hh => by cases hh) hdest
    exact ⟨hloc, stat_of_locate _ _ _ _ hloc hpd'⟩
  · rcases hfr x with h | h
    · exact absurd (h ▸ hx) hx'
    · exact h
  · by_cases hb : ls <+: pd
    · rcases run_nested_early src dest _ _ ls pd rfl rfl fs fs' err hls hdest hpd hb
        (hsep ls hls) hrun ls with h | ⟨m, h⟩
      · exact absurd (h ▸ hld) hrem
      · exfalso
        have hlen := List.IsPrefix.length_le hb
        rw [h] at hlen
        simp at hlen
    · exact run_src_removed src dest _ _ ls pd rfl rfl fs fs' err hls hld hdest hb hrun hrem

/-- Two runs: on `fsLegacy` the run returns `nil`, on `fsBlocked` an error; in
both `resources` is a directory afterwards, under its path, and in the first,
where `components` is removed, its file `a.yaml` is in `resources`. -/
theorem emptyAndCopyFiles_keeps_dest_witness :
    fsMigrated.node ["resources"] = some Node.dir ∧
    stat fsMigrated ["resources"] = .ok Node.dir ∧
    fsMigrated.node (["resources"] ++ ["a.yaml"]) = some (Node.file [97]) ∧
    (emptyAndCopyFiles [] (PathName.abs ["components"]) (PathName.abs ["resources"])
      fsBlocked).1 ≠ none ∧
    (emptyAndCopyFiles [] (PathName.abs ["components"]) (PathName.abs ["resources"])
      fsBlocked).2.node ["resources"] = some Node.dir :=
  have hsep : ∀ fs : FS, locate fs Mode.nofollow ["components"] = .ok ["components"] →
      ∀ ls, locate fs Mode.nofollow ["components"] = .ok ls → ls ≠ ["resources"] := by
    intro fs h ls hls
    rw [h] at hls
    injection hls with hls
    subst hls
    decide
  have h1 := emptyAndCopyFiles_keeps_dest [] (PathName.abs ["components"])
    (PathName.abs ["resources"]) ["resources"] fsLegacy fsMigrated none rfl rfl
    (hsep fsLegacy rfl) rfl
  have h2 := emptyAndCopyFiles_keeps_dest [] (PathName.abs ["components"])
    (PathName.abs ["resources"]) ["resources"] fsBlocked
    (emptyAndCopyFiles [] (PathName.abs ["components"]) (PathName.abs ["resources"])
      fsBlocked).2
    (emptyAndCopyFiles [] (PathName.abs ["components"]) (PathName.abs ["resources"])
      fsBlocked).1 rfl rfl (hsep fsBlocked rfl) rfl
  ⟨h1.1, (h1.2.1 rfl).2, h1.2.2.2.2 ["components"] rfl rfl (by decide) "a.yaml" [97] rfl,
    by decide, h2.1⟩

/-- Claim C8 fails as stated.  With `src` equal to `dest` the run empties the
directory, removes it and returns an error, so `dest` is no directory
afterwards and its file was written nowhere.  With an empty directory among
the entries of `dest`, that directory, which is not `src`, is removed.  And in
`fsSelfLink`, where `dest` is the path `r/l` of a link to the directory `r`
that holds it, the first loop unlinks `r/l`, the run stops with "error writing
file", and the path `dest` names nothing afterwards, while the directory `r`
it named is still there.  Likewise in `fsAlias`, where `src` and `dest` are the
same link `c` to the directory `d`: the run empties `d`, removes the link and
stops with "directory does not exist", and `dest` names nothing afterwards. -/
theorem emptyAndCopyFiles_keeps_dest_counterexample :
    (stat ⟨[(["resources"], Node.dir), (["resources", "a.yaml"], Node.file [97])]⟩
        ["resources"] = .ok Node.dir ∧
      emptyAndCopyFiles [] (PathName.abs ["resources"]) (PathName.abs ["resources"])
          ⟨[(["resources"], Node.dir), (["resources", "a.yaml"], Node.file [97])]⟩
        = (some (Err.dirNotExist (PathName.abs ["resources"])), ⟨[]⟩) ∧
      stat ⟨[]⟩ ["resources"] = .error Errno.ENOENT) ∧
    (stat ⟨[(["resources"], Node.dir), (["resources", "sub"], Node.dir),
          (["components"], Node.dir)]⟩ ["resources", "sub"] = .ok Node.dir ∧
      emptyAndCopyFiles [] (PathName.abs ["components"]) (PathName.abs ["resources"])
          ⟨[(["resources"], Node.dir), (["resources", "sub"], Node.dir),
            (["components"], Node.dir)]⟩
        = (none, ⟨[(["components"], Node.symlink (PathName.abs ["resources"])),
            (["resources"], Node.dir)]⟩) ∧
      stat ⟨[(["components"], Node.symlink (PathName.abs ["resources"])),
          (["resources"], Node.dir)]⟩
        ["resources", "sub"] = .error Errno.ENOENT) ∧
    (stat fsSelfLink ["r", "l"] = .ok Node.dir ∧
      locate fsSelfLink Mode.follow ["r", "l"] = .ok ["r"] ∧
      emptyAndCopyFiles [] (PathName.abs ["c"]) (PathName.abs ["r", "l"]) fsSelfLink
        = (some (Err.writingFile "a.yaml" Errno.ENOENT), fsSelfLink.erase ["r", "l"]) ∧
      stat (fsSelfLink.erase ["r", "l"]) ["r", "l"] = .error Errno.ENOENT ∧
      (fsSelfLink.erase ["r", "l"]).node ["r"] = some Node.dir) ∧
    (stat fsAlias ["c"] = .ok Node.dir ∧
      locate fsAlias Mode.follow ["c"] = .ok ["d"] ∧
      emptyAndCopyFiles [] (PathName.abs ["c"]) (PathName.abs ["c"]) fsAlias
        = (some (Err.dirNotExist (PathName.abs ["c"])), ⟨[(["d"], Node.dir)]⟩) ∧
      stat ⟨[(["d"], Node.dir)]⟩ ["c"] = .error Errno.ENOENT) :=
  ⟨⟨rfl, rfl, rfl⟩, ⟨rfl, rfl, rfl⟩, ⟨rfl, rfl, rfl, rfl, rfl⟩, ⟨rfl, rfl, rfl, rfl⟩⟩

end Standalone
